import Mathlib

/-!
Verification of the streaming chat transport of the `my-app` repository.

The development shallowly embeds the pieces of the TypeScript source that the
claims are about:

* the server-side transport encoder of `server/index.ts` (the
  `/api/chat/stream` route handler): chunking an answer string into
  JSON-encoded `data:` frames followed by a `[DONE]` sentinel frame;
* the client-side transport decoder `streamFromSse` of `src/hooks/useChat.ts`:
  incremental UTF-8 decoding of network reads into a growing text buffer,
  extraction of blank-line-delimited events, and dispatch of
  chunk/usage/error/done callbacks;
* the message assembler `appendAssistantToken` of `src/hooks/useChat.ts`;
* the bounded tool-calling loop `runAgent` of `server/agent.ts`.

Strings are modelled as `List Char` (Lean chars are Unicode scalar values, the
values representable in the JS strings this program manipulates).  External
library functions used by the source (`JSON.stringify` / `JSON.parse`,
`TextDecoder`) are modelled faithfully at the fidelity the program exercises;
each model notes its boundary in a comment.
-/

set_option maxRecDepth 10000

/-- Strings of the embedded program: lists of Unicode scalar values. -/
abbrev Str := List Char

/-- Whitespace test used by the models of JS `trim`/`trimStart` and of JSON
insignificant whitespace (space, tab, line feed, carriage return).  JS `trim`
additionally strips rarer Unicode space code points that never occur in this
protocol. -/
def jsWs (c : Char) : Bool :=
  c = ' ' || c = '\t' || c = '\n' || c = '\r'

/-- Model of JS `String.prototype.trimStart`. -/
def trimStart (l : Str) : Str := l.dropWhile jsWs

/-- Model of JS `String.prototype.trim`. -/
def jsTrim (l : Str) : Str := ((trimStart l).reverse.dropWhile jsWs).reverse

/-- Model of JS `String.prototype.split('\n')`: split into the (possibly
empty) segments between line feeds. -/
def splitOnNl : Str → List Str
  | [] => [[]]
  | c :: cs =>
    if c = '\n' then [] :: splitOnNl cs
    else
      match splitOnNl cs with
      | [] => [[c]]
      | l :: ls => (c :: l) :: ls

/-- Locate the first occurrence of the event delimiter `"\n\n"` in a buffer:
`some (before, after)` splits the buffer around the first blank line, mirroring
`buffer.indexOf('\n\n')` / `buffer.slice` in `streamFromSse`. -/
def splitFirstNN : Str → Option (Str × Str)
  | [] => none
  | c :: cs =>
    if c = '\n' ∧ cs.head? = some '\n' then some ([], cs.tail)
    else (splitFirstNN cs).map (fun pq => (c :: pq.1, pq.2))

theorem splitFirstNN_decomp : ∀ {l p q : Str},
    splitFirstNN l = some (p, q) → l = p ++ '\n' :: '\n' :: q := by
  intro l
  induction l with
  | nil => intro p q h; simp [splitFirstNN] at h
  | cons c cs ih =>
    intro p q h
    by_cases hc : c = '\n' ∧ cs.head? = some '\n'
    · simp [splitFirstNN, hc] at h
      obtain ⟨hp, hq⟩ := h
      subst hp hq
      rcases cs with _ | ⟨d, ds⟩
      · simp at hc
      · simp at hc
        simp [hc.1, hc.2]
    · simp only [splitFirstNN, hc, if_false, Option.map_eq_some'] at h
      rcases h with ⟨⟨p', q'⟩, hp', heq⟩
      rcases Prod.mk.injEq .. ▸ heq with ⟨hp, hq⟩
      subst hp hq
      simpa using congrArg (List.cons c) (ih hp')

theorem splitFirstNN_extend : ∀ {u : Str} {p q : Str} (v : Str),
    splitFirstNN u = some (p, q) → splitFirstNN (u ++ v) = some (p, q ++ v) := by
  intro u
  induction u with
  | nil => intro p q v h; simp [splitFirstNN] at h
  | cons c cs ih =>
    intro p q v h
    by_cases hc : c = '\n' ∧ cs.head? = some '\n'
    · rcases cs with _ | ⟨d, ds⟩
      · simp at hc
      · simp at hc
        simp [splitFirstNN, hc] at h
        obtain ⟨hp, hq⟩ := h
        subst hp hq
        simp [splitFirstNN, hc.1, hc.2]
    · simp only [splitFirstNN, hc, if_false, Option.map_eq_some'] at h
      rcases h with ⟨⟨p', q'⟩, hp', heq⟩
      rcases Prod.mk.injEq .. ▸ heq with ⟨hp, hq⟩
      subst hp hq
      have hcv : ¬(c = '\n' ∧ (cs ++ v).head? = some '\n') := by
        intro hx
        apply hc
        refine ⟨hx.1, ?_⟩
        rcases cs with _ | ⟨d, ds⟩
        · exact absurd hp' (by simp [splitFirstNN])
        · simpa using hx.2
      have hrec := ih v hp'
      simp only [List.cons_append, splitFirstNN, List.append_eq]
      rw [if_neg hcv, hrec]
      rfl

/-- A buffer containing no line feed contains no event delimiter. -/
theorem splitFirstNN_eq_none_of_no_nl : ∀ {l : Str}, '\n' ∉ l →
    splitFirstNN l = none := by
  intro l
  induction l with
  | nil => intro _; rfl
  | cons c cs ih =>
    intro h
    have hc : ¬(c = '\n' ∧ cs.head? = some '\n') := by
      intro hx; exact h (by simp [hx.1])
    simp [splitFirstNN, hc, ih (fun hm => h (by simp [hm]))]

/-! ### UTF-8 byte layer

The server writes frames over the socket as UTF-8 bytes; the client reads raw
byte chunks and decodes them incrementally with `new TextDecoder()` and
`decoder.decode(value, { stream: true })`.  `utf8Dec` models the streaming
decoder: it greedily decodes complete characters from the front of the pending
bytes and keeps the undecodable remainder (an incomplete multi-byte sequence)
for the next read.  The model covers the valid byte sequences this protocol
produces; `TextDecoder`'s replacement-character handling of invalid bytes is
outside the streams the theorems quantify over. -/

/-- UTF-8 encoding of one scalar value. -/
def encodeChar (c : Char) : List Nat :=
  let n := c.toNat
  if n < 0x80 then [n]
  else if n < 0x800 then [0xC0 + n / 64, 0x80 + n % 64]
  else if n < 0x10000 then [0xE0 + n / 4096, 0x80 + n / 64 % 64, 0x80 + n % 64]
  else [0xF0 + n / 262144, 0x80 + n / 4096 % 64, 0x80 + n / 64 % 64, 0x80 + n % 64]

/-- UTF-8 encoding of a string. -/
def utf8Encode (s : Str) : List Nat := (s.map encodeChar).flatten

/-- Number of bytes of the character whose lead byte is `b0`. -/
def charLen (b0 : Nat) : Nat :=
  if b0 < 0x80 then 1 else if b0 < 0xE0 then 2 else if b0 < 0xF0 then 3 else 4

/-- Continuation-byte test. -/
def isCont (b : Nat) : Bool := 0x80 ≤ b && b < 0xC0

/-- Decode a complete character from exactly the given bytes, with the usual
overlong/surrogate/range validity checks. -/
def decodeCore : List Nat → Option Nat
  | [b0] => if b0 < 0x80 then some b0 else none
  | [b0, b1] =>
    if 0xC2 ≤ b0 ∧ b0 < 0xE0 ∧ isCont b1 then some ((b0 - 0xC0) * 64 + (b1 - 0x80))
    else none
  | [b0, b1, b2] =>
    if 0xE0 ≤ b0 ∧ b0 < 0xF0 ∧ isCont b1 ∧ isCont b2 then
      let n := (b0 - 0xE0) * 4096 + (b1 - 0x80) * 64 + (b2 - 0x80)
      if 0x800 ≤ n ∧ (n < 0xD800 ∨ 0xE000 ≤ n) then some n else none
    else none
  | [b0, b1, b2, b3] =>
    if 0xF0 ≤ b0 ∧ b0 < 0xF5 ∧ isCont b1 ∧ isCont b2 ∧ isCont b3 then
      let n := (b0 - 0xF0) * 262144 + (b1 - 0x80) * 4096 + (b2 - 0x80) * 64 + (b3 - 0x80)
      if 0x10000 ≤ n ∧ n < 0x110000 then some n else none
    else none
  | _ => none

/-- Decode one character from the front of a byte buffer; `none` when the
buffer starts with an incomplete sequence (or invalid bytes). -/
def decChar (bs : List Nat) : Option (Char × List Nat) :=
  match bs with
  | [] => none
  | b0 :: _ =>
    let k := charLen b0
    if k ≤ bs.length then
      (decodeCore (bs.take k)).map (fun n => (Char.ofNat n, bs.drop k))
    else none

/-- Streaming UTF-8 decode with explicit fuel (the fuel is only a structural
termination device; `bs.length` is always enough). -/
def utf8Dec : Nat → List Nat → Str × List Nat
  | 0, bs => ([], bs)
  | f + 1, bs =>
    match decChar bs with
    | none => ([], bs)
    | some (c, r) =>
      let tp := utf8Dec f r
      (c :: tp.1, tp.2)

/-- Model of `TextDecoder.decode(·, { stream: true })` applied to a byte
buffer: the decoded text and the pending undecoded trailing bytes. -/
def utf8DecodeStream (bs : List Nat) : Str × List Nat := utf8Dec bs.length bs

theorem charLen_pos (b0 : Nat) : 0 < charLen b0 := by
  unfold charLen; split_ifs <;> omega

theorem decChar_sublen {bs : List Nat} {c : Char} {r : List Nat}
    (h : decChar bs = some (c, r)) : r.length < bs.length := by
  rcases bs with _ | ⟨b0, t⟩
  · simp [decChar] at h
  · simp only [decChar] at h
    split_ifs at h with hk
    · rcases Option.map_eq_some'.1 h with ⟨n, _, heq⟩
      have hr : r = (b0 :: t).drop (charLen b0) := by
        simpa using congrArg Prod.snd heq.symm
      subst hr
      have := charLen_pos b0
      simp only [List.length_drop]
      simp at hk ⊢
      omega

theorem decChar_extend {x : List Nat} {c : Char} {r : List Nat} (y : List Nat)
    (h : decChar x = some (c, r)) : decChar (x ++ y) = some (c, r ++ y) := by
  rcases x with _ | ⟨b0, t⟩
  · simp [decChar] at h
  · simp only [decChar] at h
    split_ifs at h with hk
    · rcases Option.map_eq_some'.1 h with ⟨n, hn, heq⟩
      have hc : c = Char.ofNat n := by simpa using (congrArg Prod.fst heq.symm)
      have hr : r = (b0 :: t).drop (charLen b0) := by
        simpa using congrArg Prod.snd heq.symm
      have hk' : charLen b0 ≤ (b0 :: t ++ y).length := by
        simp at hk ⊢; omega
      have htake : (b0 :: t ++ y).take (charLen b0) = (b0 :: t).take (charLen b0) := by
        rw [show (b0 :: t ++ y) = (b0 :: t) ++ y from rfl]
        exact List.take_append_of_le_length hk
      have hdrop : (b0 :: t ++ y).drop (charLen b0) = (b0 :: t).drop (charLen b0) ++ y := by
        rw [show (b0 :: t ++ y) = (b0 :: t) ++ y from rfl]
        exact List.drop_append_of_le_length hk
      simp only [decChar, List.cons_append]
      rw [show (b0 :: (t ++ y)) = (b0 :: t) ++ y from rfl] at *
      rw [if_pos hk', htake, hdrop, hn]
      simp [hc, hr]

theorem decChar_encodeChar (c : Char) (rest : List Nat) :
    decChar (encodeChar c ++ rest) = some (c, rest) := by
  have hv : c.toNat < 0xd800 ∨ (0xdfff < c.toNat ∧ c.toNat < 0x110000) := c.valid
  have hofnat := Char.ofNat_toNat c
  by_cases h1 : c.toNat < 0x80
  · have he : encodeChar c = [c.toNat] := by simp [encodeChar, h1]
    rw [he]
    simp only [List.cons_append, List.nil_append, decChar]
    have hcl : charLen c.toNat = 1 := by
      unfold charLen
      rw [if_pos h1]
    rw [hcl]
    rw [if_pos (by simp)]
    simp [decodeCore, h1, hofnat]
  by_cases h2 : c.toNat < 0x800
  · have he : encodeChar c = [0xC0 + c.toNat / 64, 0x80 + c.toNat % 64] := by
      simp [encodeChar, h1, h2]
    rw [he]
    simp only [List.cons_append, List.nil_append, decChar]
    have hcl : charLen (0xC0 + c.toNat / 64) = 2 := by unfold charLen; split_ifs <;> omega
    rw [hcl]
    rw [if_pos (by simp)]
    have hcond : 0xC2 ≤ 0xC0 + c.toNat / 64 ∧ 0xC0 + c.toNat / 64 < 0xE0 ∧
        isCont (0x80 + c.toNat % 64) := by
      refine ⟨by omega, by omega, ?_⟩
      simp [isCont]; omega
    simp only [List.take_succ_cons, List.take_zero, List.drop_succ_cons, List.drop_zero,
      decodeCore, if_pos hcond, Option.map_some']
    have hval : (0xC0 + c.toNat / 64 - 0xC0) * 64 + (0x80 + c.toNat % 64 - 0x80) = c.toNat := by
      omega
    rw [hval, hofnat]
  by_cases h3 : c.toNat < 0x10000
  · have he : encodeChar c =
        [0xE0 + c.toNat / 4096, 0x80 + c.toNat / 64 % 64, 0x80 + c.toNat % 64] := by
      simp [encodeChar, h1, h2, h3]
    rw [he]
    simp only [List.cons_append, List.nil_append, decChar]
    have hcl : charLen (0xE0 + c.toNat / 4096) = 3 := by unfold charLen; split_ifs <;> omega
    rw [hcl]
    rw [if_pos (by simp)]
    have hcond : 0xE0 ≤ 0xE0 + c.toNat / 4096 ∧ 0xE0 + c.toNat / 4096 < 0xF0 ∧
        isCont (0x80 + c.toNat / 64 % 64) ∧ isCont (0x80 + c.toNat % 64) := by
      refine ⟨by omega, by omega, by simp [isCont]; omega, by simp [isCont]; omega⟩
    simp only [List.take_succ_cons, List.take_zero, List.drop_succ_cons, List.drop_zero,
      decodeCore, if_pos hcond]
    have hval : (0xE0 + c.toNat / 4096 - 0xE0) * 4096 +
        (0x80 + c.toNat / 64 % 64 - 0x80) * 64 + (0x80 + c.toNat % 64 - 0x80) = c.toNat := by
      omega
    rw [hval]
    rw [if_pos (by omega)]
    simp [hofnat]
  · have he : encodeChar c = [0xF0 + c.toNat / 262144, 0x80 + c.toNat / 4096 % 64,
        0x80 + c.toNat / 64 % 64, 0x80 + c.toNat % 64] := by
      simp [encodeChar, h1, h2, h3]
    rw [he]
    simp only [List.cons_append, List.nil_append, decChar]
    have hcl : charLen (0xF0 + c.toNat / 262144) = 4 := by unfold charLen; split_ifs <;> omega
    rw [hcl]
    rw [if_pos (by simp)]
    have hcond : 0xF0 ≤ 0xF0 + c.toNat / 262144 ∧ 0xF0 + c.toNat / 262144 < 0xF5 ∧
        isCont (0x80 + c.toNat / 4096 % 64) ∧ isCont (0x80 + c.toNat / 64 % 64) ∧
        isCont (0x80 + c.toNat % 64) := by
      refine ⟨by omega, by omega, by simp [isCont]; omega, by simp [isCont]; omega, by simp [isCont]; omega⟩
    simp only [List.take_succ_cons, List.take_zero, List.drop_succ_cons, List.drop_zero,
      decodeCore, if_pos hcond]
    have hval : (0xF0 + c.toNat / 262144 - 0xF0) * 262144 +
        (0x80 + c.toNat / 4096 % 64 - 0x80) * 4096 +
        (0x80 + c.toNat / 64 % 64 - 0x80) * 64 + (0x80 + c.toNat % 64 - 0x80) = c.toNat := by
      omega
    rw [hval]
    rw [if_pos (by omega)]
    simp [hofnat]

theorem utf8Dec_irrel : ∀ (f g : Nat) (bs : List Nat), bs.length ≤ f → bs.length ≤ g →
    utf8Dec f bs = utf8Dec g bs := by
  intro f
  induction f with
  | zero =>
    intro g bs hf _
    have : bs = [] := List.length_eq_zero.1 (Nat.le_zero.1 hf)
    subst this
    cases g <;> simp [utf8Dec, decChar]
  | succ f ih =>
    intro g bs hf hg
    cases g with
    | zero =>
      have : bs = [] := List.length_eq_zero.1 (Nat.le_zero.1 hg)
      subst this
      simp [utf8Dec, decChar]
    | succ g =>
      simp only [utf8Dec]
      cases hdc : decChar bs with
      | none => rfl
      | some cr =>
        obtain ⟨c, r⟩ := cr
        have hlt := decChar_sublen hdc
        dsimp only
        simp only at hlt
        rw [ih g r (by omega) (by omega)]

theorem utf8DecodeStream_step (bs : List Nat) :
    utf8DecodeStream bs =
      match decChar bs with
      | none => ([], bs)
      | some (c, r) => (c :: (utf8DecodeStream r).1, (utf8DecodeStream r).2) := by
  rcases bs with _ | ⟨b, t⟩
  · simp [utf8DecodeStream, utf8Dec, decChar]
  · show utf8Dec (t.length + 1) (b :: t) = _
    simp only [utf8Dec]
    cases hdc : decChar (b :: t) with
    | none => rfl
    | some cr =>
      obtain ⟨c, r⟩ := cr
      have hlt := decChar_sublen hdc
      simp only [List.length_cons] at hlt
      dsimp only
      have : utf8Dec t.length r = utf8Dec r.length r :=
        utf8Dec_irrel _ _ _ (by omega) (le_refl _)
      rw [this]
      rfl

theorem utf8DecodeStream_append (x y : List Nat) :
    utf8DecodeStream (x ++ y) =
      ((utf8DecodeStream x).1 ++ (utf8DecodeStream ((utf8DecodeStream x).2 ++ y)).1,
        (utf8DecodeStream ((utf8DecodeStream x).2 ++ y)).2) := by
  suffices h : ∀ (f : Nat) (x y : List Nat), x.length ≤ f →
      utf8DecodeStream (x ++ y) =
        ((utf8DecodeStream x).1 ++ (utf8DecodeStream ((utf8DecodeStream x).2 ++ y)).1,
          (utf8DecodeStream ((utf8DecodeStream x).2 ++ y)).2) from
    h x.length x y (le_refl _)
  intro f
  induction f with
  | zero =>
    intro x y hf
    have : x = [] := List.length_eq_zero.1 (Nat.le_zero.1 hf)
    subst this
    simp [utf8DecodeStream, utf8Dec, decChar]
  | succ f ih =>
    intro x y hf
    cases hdc : decChar x with
    | none =>
      rw [utf8DecodeStream_step x, hdc]
      simp
    | some cr =>
      obtain ⟨c, r⟩ := cr
      have hlt := decChar_sublen hdc
      rw [utf8DecodeStream_step (x ++ y), decChar_extend y hdc,
        utf8DecodeStream_step x, hdc]
      have := ih r y (by omega)
      dsimp only
      rw [this]
      simp

theorem utf8DecodeStream_encode : ∀ (s : Str),
    utf8DecodeStream (utf8Encode s) = (s, []) := by
  intro s
  induction s with
  | nil => simp [utf8Encode, utf8DecodeStream, utf8Dec, decChar]
  | cons c s ih =>
    have : utf8Encode (c :: s) = encodeChar c ++ utf8Encode s := by
      simp [utf8Encode]
    rw [this, utf8DecodeStream_step, decChar_encodeChar]
    dsimp only
    rw [ih]

theorem utf8DecodeStream_pending (bs : List Nat) :
    decChar (utf8DecodeStream bs).2 = none := by
  suffices h : ∀ (f : Nat) (bs : List Nat), bs.length ≤ f →
      decChar (utf8DecodeStream bs).2 = none from h bs.length bs (le_refl _)
  intro f
  induction f with
  | zero =>
    intro bs hf
    have : bs = [] := List.length_eq_zero.1 (Nat.le_zero.1 hf)
    subst this
    simp [utf8DecodeStream, utf8Dec, decChar]
  | succ f ih =>
    intro bs hf
    rw [utf8DecodeStream_step bs]
    cases hdc : decChar bs with
    | none => simpa using hdc
    | some cr =>
      obtain ⟨c, r⟩ := cr
      have hlt := decChar_sublen hdc
      simpa using ih r (by omega)

/-! ### JSON layer

Model of the JS `JSON` library as the source uses it: `JSON.stringify` applied
to strings (the encoder's framing of chunks and of the error `message`
object) and `JSON.parse` applied to event payloads.  Values are parsed into
`Jv`; numbers keep their raw token together with a zero-test (the only
semantic fact about a number the source ever consults, through JS
truthiness).  Lone-surrogate escapes — expressible in JS strings but not as
Unicode scalar values — are rejected by the model. -/

inductive Jv where
  | jnull
  | jbool (b : Bool)
  | jnum (isZero : Bool) (raw : Str)
  | jstr (s : Str)
  | jarr (xs : List Jv)
  | jobj (members : List (Str × Jv))

/-- Lowercase hexadecimal digit, as `JSON.stringify` emits in `\u00XX`. -/
def hexDigit (m : Nat) : Char :=
  ("0123456789abcdef".data).getD m 'f'

/-- Value of a hexadecimal digit character. -/
def hexVal (c : Char) : Option Nat :=
  let n := c.toNat
  if 48 ≤ n ∧ n ≤ 57 then some (n - 48)
  else if 97 ≤ n ∧ n ≤ 102 then some (n - 87)
  else if 65 ≤ n ∧ n ≤ 70 then some (n - 55)
  else none

/-- Value of four hexadecimal digits. -/
def hex4 (c1 c2 c3 c4 : Char) : Option Nat :=
  match hexVal c1, hexVal c2, hexVal c3, hexVal c4 with
  | some v1, some v2, some v3, some v4 => some (v1 * 4096 + v2 * 256 + v3 * 16 + v4)
  | _, _, _, _ => none

/-- Escaping of one character inside a JSON string literal, as
`JSON.stringify` performs it: quote, backslash and the named control
characters get two-character escapes, other control characters get `\u00XX`,
everything else is copied verbatim. -/
def escChar (c : Char) : Str :=
  if c = '\"' then ['\\', '\"']
  else if c = '\\' then ['\\', '\\']
  else if c = '\x08' then ['\\', 'b']
  else if c = '\t' then ['\\', 't']
  else if c = '\n' then ['\\', 'n']
  else if c = '\x0c' then ['\\', 'f']
  else if c = '\r' then ['\\', 'r']
  else if c.toNat < 32 then ['\\', 'u', '0', '0', hexDigit (c.toNat / 16), hexDigit (c.toNat % 16)]
  else [c]

/-- Body of an escaped JSON string literal, including the closing quote. -/
def escBody : Str → Str
  | [] => ['\"']
  | c :: cs => escChar c ++ escBody cs

/-- Model of `JSON.stringify` applied to a string value. -/
def jsonEscape (s : Str) : Str := '\"' :: escBody s

/-- Character denoted by a two-character escape. -/
def escCharOf (e : Char) : Option Char :=
  if e = '\"' then some '\"'
  else if e = '\\' then some '\\'
  else if e = '/' then some '/'
  else if e = 'b' then some '\x08'
  else if e = 'f' then some '\x0c'
  else if e = 'n' then some '\n'
  else if e = 'r' then some '\r'
  else if e = 't' then some '\t'
  else none

/-- Decode one escape sequence (the part after the backslash): the denoted
character and the remaining input.  Surrogate escape pairs are combined into
one scalar value; unpaired surrogate escapes are rejected (they denote no
scalar value, see the module comment on the JSON layer). -/
def decodeEsc : Str → Option (Char × Str)
  | [] => none
  | e :: cs1 =>
    if e = 'u' then
      match cs1 with
      | c1 :: c2 :: c3 :: c4 :: cs2 =>
        match hex4 c1 c2 c3 c4 with
        | none => none
        | some m =>
          if 0xD800 ≤ m ∧ m < 0xDC00 then
            match cs2 with
            | e2 :: u2 :: d1 :: d2 :: d3 :: d4 :: cs3 =>
              if e2 = '\\' ∧ u2 = 'u' then
                match hex4 d1 d2 d3 d4 with
                | none => none
                | some lo =>
                  if 0xDC00 ≤ lo ∧ lo < 0xE000 then
                    some (Char.ofNat (0x10000 + (m - 0xD800) * 1024 + (lo - 0xDC00)), cs3)
                  else none
              else none
            | _ => none
          else if 0xDC00 ≤ m ∧ m < 0xE000 then none
          else some (Char.ofNat m, cs2)
      | _ => none
    else (escCharOf e).map (fun ch => (ch, cs1))

/-- Parse the body of a JSON string literal (the part after the opening
quote), consuming the closing quote (fuelled; `l.length` is always enough
fuel). -/
def psb : Nat → Str → Option (Str × Str)
  | 0, _ => none
  | f + 1, l =>
    match l with
    | [] => none
    | c :: cs =>
      if c = '\"' then some ([], cs)
      else if c = '\\' then
        match decodeEsc cs with
        | none => none
        | some (ch, rest) => (psb f rest).map (fun sr => (ch :: sr.1, sr.2))
      else if c.toNat < 32 then none
      else (psb f cs).map (fun sr => (c :: sr.1, sr.2))

/-- Parse the body of a JSON string literal. -/
def parseStrBody (l : Str) : Option (Str × Str) := psb l.length l

/-- Decimal digit test. -/
def isDigitCh (c : Char) : Bool := 48 ≤ c.toNat && c.toNat ≤ 57

/-- Integer part of a JSON number: `0`, or a nonzero digit followed by
digits. -/
def numInt : Str → Option (Str × Str)
  | [] => none
  | c :: r =>
    if c = '0' then some (['0'], r)
    else if isDigitCh c then some (c :: r.takeWhile isDigitCh, r.dropWhile isDigitCh)
    else none

/-- Optional fraction part (`.` followed by at least one digit). -/
def numFrac (l : Str) : Option (Str × Str) :=
  if l.head? = some '.' then
    let ds := l.tail.takeWhile isDigitCh
    if ds = [] then none else some ('.' :: ds, l.tail.dropWhile isDigitCh)
  else some ([], l)

/-- Optional exponent part (`e`/`E`, optional sign, at least one digit). -/
def numExp (l : Str) : Option (Str × Str) :=
  match l with
  | [] => some ([], [])
  | c :: r =>
    if c = 'e' ∨ c = 'E' then
      let sgr : Str × Str :=
        if r.head? = some '+' then (['+'], r.tail)
        else if r.head? = some '-' then (['-'], r.tail)
        else ([], r)
      let ds := sgr.2.takeWhile isDigitCh
      if ds = [] then none else some (c :: (sgr.1 ++ ds), sgr.2.dropWhile isDigitCh)
    else some ([], c :: r)

/-- Parse a JSON number token; the value records its raw text and whether it
denotes zero (all significand digits `0`), the only semantic fact the source
consults, via truthiness. -/
def parseNum (l : Str) : Option (Jv × Str) :=
  let sgl : Str × Str := if l.head? = some '-' then (['-'], l.tail) else ([], l)
  match numInt sgl.2 with
  | none => none
  | some (ip, l2) =>
    match numFrac l2 with
    | none => none
    | some (fp, l3) =>
      match numExp l3 with
      | none => none
      | some (ep, l4) =>
        some (.jnum ((ip ++ fp).all (fun c => c == '0' || c == '.')) (sgl.1 ++ ip ++ fp ++ ep), l4)

/-- Skip JSON insignificant whitespace. -/
def skipWs (l : Str) : Str := l.dropWhile jsWs

mutual

/-- Parse one JSON value (fuelled recursive descent; callers skip leading
whitespace). -/
def parseVal : Nat → Str → Option (Jv × Str)
  | 0, _ => none
  | f + 1, l =>
    match l with
    | [] => none
    | c :: cs =>
      if c = '\"' then (parseStrBody cs).map (fun sr => (Jv.jstr sr.1, sr.2))
      else if c = 't' then
        if cs.take 3 = ['r', 'u', 'e'] then some (.jbool true, cs.drop 3) else none
      else if c = 'f' then
        if cs.take 4 = ['a', 'l', 's', 'e'] then some (.jbool false, cs.drop 4) else none
      else if c = 'n' then
        if cs.take 3 = ['u', 'l', 'l'] then some (.jnull, cs.drop 3) else none
      else if c = '[' then
        let cs1 := skipWs cs
        if cs1.head? = some ']' then some (.jarr [], cs1.tail)
        else (parseElems f cs1).map (fun er => (Jv.jarr er.1, er.2))
      else if c = '\x7b' then
        let cs1 := skipWs cs
        if cs1.head? = some '\x7d' then some (.jobj [], cs1.tail)
        else (parseMembers f cs1).map (fun mr => (Jv.jobj mr.1, mr.2))
      else parseNum (c :: cs)

/-- Parse the elements of a nonempty JSON array, consuming the closing
bracket. -/
def parseElems : Nat → Str → Option (List Jv × Str)
  | 0, _ => none
  | f + 1, l =>
    match parseVal f l with
    | none => none
    | some (v, r) =>
      let r1 := skipWs r
      if r1.head? = some ',' then
        match parseElems f (skipWs r1.tail) with
        | some (vs, r3) => some (v :: vs, r3)
        | none => none
      else if r1.head? = some ']' then some ([v], r1.tail)
      else none

/-- Parse the members of a nonempty JSON object, consuming the closing
brace. -/
def parseMembers : Nat → Str → Option (List (Str × Jv) × Str)
  | 0, _ => none
  | f + 1, l =>
    if l.head? = some '\"' then
      match parseStrBody l.tail with
      | none => none
      | some (k, r) =>
        let r1 := skipWs r
        if r1.head? = some ':' then
          match parseVal f (skipWs r1.tail) with
          | none => none
          | some (v, r3) =>
            let r4 := skipWs r3
            if r4.head? = some ',' then
              match parseMembers f (skipWs r4.tail) with
              | some (ms, r5) => some ((k, v) :: ms, r5)
              | none => none
            else if r4.head? = some '\x7d' then some ([(k, v)], r4.tail)
            else none
        else none
    else none

end

/-- Model of `JSON.parse`: whole-input parse, whitespace allowed around the
single top-level value.  The fuel `2 * length + 2` dominates the recursion
depth (every two fuel steps consume at least one input character). -/
def jsonParse (l : Str) : Option Jv :=
  match parseVal (2 * l.length + 2) (skipWs l) with
  | some (v, r) => if skipWs r = [] then some v else none
  | none => none

/-- Model of JS member access `parsed.k` on a parsed JSON value: objects give
the last binding of the key (`JSON.parse` keeps the last duplicate), every
other value has no own members (`undefined`). -/
def jGet (j : Jv) (k : Str) : Option Jv :=
  match j with
  | .jobj ms => (ms.reverse.find? (fun m => m.1 == k)).map (fun m => m.2)
  | _ => none

/-- JS truthiness of a parsed JSON value. -/
def jTruthy : Jv → Bool
  | .jnull => false
  | .jbool b => b
  | .jnum isZero _ => !isZero
  | .jstr s => !s.isEmpty
  | .jarr _ => true
  | .jobj _ => true

theorem hexVal_hexDigit {m : Nat} (h : m < 16) : hexVal (hexDigit m) = some m := by
  interval_cases m <;> decide

theorem hexDigit_ne_nl (m : Nat) : hexDigit m ≠ '\n' := by
  by_cases h : m < 16
  · interval_cases m <;> decide
  · have hd : hexDigit m = 'f' := by
      unfold hexDigit
      apply List.getD_eq_default
      simp; omega
    rw [hd]; decide

theorem escChar_no_nl (c : Char) : '\n' ∉ escChar c := by
  unfold escChar
  split_ifs with h1 h2 h3 h4 h5 h6 h7 h8
  · decide
  · decide
  · decide
  · decide
  · decide
  · decide
  · decide
  · intro hm
    simp only [List.mem_cons, List.not_mem_nil, or_false] at hm
    rcases hm with h | h | h | h | h | h <;>
      first
        | exact absurd h.symm (by decide)
        | exact absurd h.symm (hexDigit_ne_nl _)
  · intro hm
    simp only [List.mem_cons, List.not_mem_nil, or_false] at hm
    exact h5 hm.symm

theorem escBody_no_nl (s : Str) : '\n' ∉ escBody s := by
  induction s with
  | nil => decide
  | cons c cs ih =>
    intro hm
    rcases List.mem_append.1 hm with h | h
    · exact escChar_no_nl c h
    · exact ih h

theorem jsonEscape_no_nl (s : Str) : '\n' ∉ jsonEscape s := by
  intro hm
  rcases List.mem_cons.1 hm with h | h
  · exact absurd h (by decide)
  · exact escBody_no_nl s h

theorem escBody_length_pos (s : Str) : 0 < (escBody s).length := by
  cases s with
  | nil => simp [escBody]
  | cons c cs =>
    have : escChar c ≠ [] := by unfold escChar; split_ifs <;> simp
    simp only [escBody, List.length_append]
    have := List.length_pos.2 this
    omega

theorem decodeEsc_u00 {c3 c4 : Char} {v3 v4 : Nat} {l : Str}
    (h3 : hexVal c3 = some v3) (h4 : hexVal c4 = some v4) (hlt : v3 * 16 + v4 < 0xD800) :
    decodeEsc ('u' :: '0' :: '0' :: c3 :: c4 :: l) = some (Char.ofNat (v3 * 16 + v4), l) := by
  have hz : hexVal '0' = some 0 := by decide
  simp only [decodeEsc, hex4, hz, h3, h4, if_pos trivial]
  have hne1 : ¬(55296 ≤ 0 * 4096 + 0 * 256 + v3 * 16 + v4 ∧
      0 * 4096 + 0 * 256 + v3 * 16 + v4 < 56320) := by omega
  have hne2 : ¬(56320 ≤ 0 * 4096 + 0 * 256 + v3 * 16 + v4 ∧
      0 * 4096 + 0 * 256 + v3 * 16 + v4 < 57344) := by omega
  rw [if_neg hne1, if_neg hne2]
  have hm : 0 * 4096 + 0 * 256 + v3 * 16 + v4 = v3 * 16 + v4 := by omega
  rw [hm]

theorem escChar_length_pos (c : Char) : 0 < (escChar c).length := by
  unfold escChar; split_ifs <;> simp

theorem psb_escBody : ∀ (f : Nat) (s r : Str), (escBody s).length ≤ f →
    psb f (escBody s ++ r) = some (s, r) := by
  intro f
  induction f with
  | zero =>
    intro s r h
    exact absurd h (by have := escBody_length_pos s; omega)
  | succ f ih =>
    intro s r h
    cases s with
    | nil => simp [escBody, psb]
    | cons c cs =>
      have hcs : (escBody cs).length ≤ f := by
        have hp := escChar_length_pos c
        have hha : (escChar c).length + (escBody cs).length ≤ f + 1 := by
          simpa [escBody, List.length_append] using h
        omega
      show psb (f + 1) ((escChar c ++ escBody cs) ++ r) = _
      rw [List.append_assoc]
      unfold escChar
      split_ifs with h1 h2 h3 h4 h5 h6 h7 h8
      · subst h1; simp [psb, decodeEsc, escCharOf, ih cs r hcs]
      · subst h2; simp [psb, decodeEsc, escCharOf, ih cs r hcs]
      · subst h3; simp [psb, decodeEsc, escCharOf, ih cs r hcs]
      · subst h4; simp [psb, decodeEsc, escCharOf, ih cs r hcs]
      · subst h5; simp [psb, decodeEsc, escCharOf, ih cs r hcs]
      · subst h6; simp [psb, decodeEsc, escCharOf, ih cs r hcs]
      · subst h7; simp [psb, decodeEsc, escCharOf, ih cs r hcs]
      · -- other control characters: the `\u00XX` escape
        have hdiv : c.toNat / 16 < 16 := by omega
        have hmod : c.toNat % 16 < 16 := by omega
        simp only [List.cons_append, List.nil_append, psb]
        rw [if_neg (by decide)]
        rw [decodeEsc_u00 (hexVal_hexDigit hdiv) (hexVal_hexDigit hmod) (by omega)]
        dsimp only
        rw [ih cs r hcs]
        have hm : c.toNat / 16 * 16 + c.toNat % 16 = c.toNat := by omega
        rw [hm, Char.ofNat_toNat]
        rfl
      · -- ordinary character, copied verbatim
        simp only [List.cons_append, List.nil_append, psb]
        rw [if_neg h1, if_neg h2, if_neg h8]
        rw [ih cs r hcs]
        rfl

theorem parseStrBody_escBody_tail (s r : Str) : parseStrBody (escBody s ++ r) = some (s, r) :=
  psb_escBody (escBody s ++ r).length s r (by simp)

theorem parseStrBody_escBody (s : Str) : parseStrBody (escBody s) = some (s, []) := by
  have := parseStrBody_escBody_tail s []
  simpa using this

theorem jsonParse_jsonEscape (s : Str) : jsonParse (jsonEscape s) = some (.jstr s) := by
  have hskip : skipWs (jsonEscape s) = '\"' :: escBody s := by
    simp [skipWs, jsonEscape, jsWs]
  unfold jsonParse
  rw [hskip]
  rw [show 2 * (jsonEscape s).length + 2 = (2 * (jsonEscape s).length + 1) + 1 from rfl]
  simp only [parseVal]
  rw [if_pos trivial, parseStrBody_escBody]
  simp [skipWs]

/-! ### Event layer: `streamFromSse` (src/hooks/useChat.ts)

The client decoder reads raw byte chunks, appends their incremental UTF-8
decoding to a growing text buffer, extracts blank-line-delimited events, and
dispatches callbacks.  `handleEvent` models lines 100-153 of the hook: the
event-type line, the `data:` lines, the `[DONE]` sentinel, and the
error/usage/default dispatch.  The boolean in its result is `true` when the
event terminates the stream (the source returns from `streamFromSse`). -/

/-- The literal `[DONE]` sentinel payload. -/
def doneS : Str := ['[', 'D', 'O', 'N', 'E', ']']

/-- The `event:` line marker. -/
def eventMarker : Str := ['e', 'v', 'e', 'n', 't', ':']

/-- The `data:` line marker. -/
def dataMarker : Str := ['d', 'a', 't', 'a', ':']

/-- Declared type of an event: the first line starting with `event:`, with
the marker removed and the remainder trimmed (`lines.find(...).slice.trim()`
in the source); `none` when no such line exists. -/
def eventTypeOf (raw : Str) : Option Str :=
  ((splitOnNl raw).find? (fun l => eventMarker.isPrefixOf l)).map
    (fun l => jsTrim (l.drop 6))

/-- Data lines of an event: every line starting with `data:`, with the marker
removed and the remainder left-trimmed. -/
def dataLinesOf (raw : Str) : List Str :=
  ((splitOnNl raw).filter (fun l => dataMarker.isPrefixOf l)).map
    (fun l => trimStart (l.drop 5))

/-- Data payload of an event: the newline-join of its data lines, or `none`
when there are no data lines (the source `continue`s on such events). -/
def dataOf (raw : Str) : Option Str :=
  if dataLinesOf raw = [] then none else some (List.intercalate ['\n'] (dataLinesOf raw))

/-- Wire-level error descriptor dispatched by the decoder (the
`ErrorResponse` of src/types): a kind, a human message and a retryable flag.
The message field holds the JS value the source stores there (for an `error`
event, `parsed.message` may be any JSON value). -/
structure ErrorResponse where
  type : Str
  message : Jv
  retryable : Bool

/-- One decoder callback invocation. -/
inductive Callback where
  | chunk (s : Str)
  | usage (j : Jv)
  | error (e : ErrorResponse)
  | done

/-- The string `"Unknown error"`. -/
def unknownErrorS : Str :=
  ['U', 'n', 'k', 'n', 'o', 'w', 'n', ' ', 'e', 'r', 'r', 'o', 'r']

/-- The key `"message"`. -/
def messageKey : Str := ['m', 'e', 's', 's', 'a', 'g', 'e']

/-- Message value carried by the error callback for an `error` event with
payload `d`, following the source: inside `try`, `JSON.parse(data)` then
`parsed.message || 'Unknown error'`; member access on a parsed `null` throws,
landing in the `catch`, whose message is `data || 'Unknown error'`, as is a
parse failure's. -/
def errMsgVal (d : Str) : Jv :=
  match jsonParse d with
  | none => .jstr (if d = [] then unknownErrorS else d)
  | some .jnull => .jstr (if d = [] then unknownErrorS else d)
  | some j =>
    match jGet j messageKey with
    | some v => if jTruthy v then v else .jstr unknownErrorS
    | none => .jstr unknownErrorS

/-- Callbacks of a default (chunk) event with payload `d`: the decoded string
when the payload parses as a JSON string, nothing when it parses as any other
JSON value (`typeof chunk === 'string'` fails and the source drops the
event), and the raw payload when parsing throws. -/
def chunkCbs (d : Str) : List Callback :=
  match jsonParse d with
  | some (.jstr s) => [.chunk s]
  | some _ => []
  | none => [.chunk d]

/-- The string `"error"`. -/
def errorS : Str := ['e', 'r', 'r', 'o', 'r']

/-- The string `"server"`. -/
def serverS : Str := ['s', 'e', 'r', 'v', 'e', 'r']

/-- The string `"usage"`. -/
def usageS : Str := ['u', 's', 'a', 'g', 'e']

/-- Dispatch one extracted raw event, as lines 100-153 of `streamFromSse`:
events without data lines are skipped; a `[DONE]` payload fires the done
callback and terminates regardless of declared type; an `error` event fires
one error callback (kind `server`, not retryable) and terminates; a `usage`
event fires the usage callback when its payload parses and continues; any
other event fires the chunk callbacks of `chunkCbs` and continues. -/
def handleEvent (raw : Str) : List Callback × Bool :=
  match dataOf raw with
  | none => ([], false)
  | some d =>
    if d = doneS then ([.done], true)
    else if eventTypeOf raw = some errorS then
      ([.error ⟨serverS, errMsgVal d, false⟩], true)
    else if eventTypeOf raw = some usageS then
      (match jsonParse d with
       | some j => [.usage j]
       | none => [], false)
    else (chunkCbs d, false)

/-- Drain the buffer: extract and dispatch events while the buffer contains
the blank-line delimiter, mirroring the inner `while` of `streamFromSse`.
`none` in the second component means a terminal event halted the stream
(fuelled; `buf.length` is always enough fuel since each extraction consumes
the two delimiter characters). -/
def drainGo : Nat → Str → List Callback × Option Str
  | 0, buf => ([], some buf)
  | f + 1, buf =>
    match splitFirstNN buf with
    | none => ([], some buf)
    | some (e, r) =>
      let cb := handleEvent e
      if cb.2 then (cb.1, none)
      else
        let rec2 := drainGo f r
        (cb.1 ++ rec2.1, rec2.2)

/-- Drain the buffer (fuel instantiated). -/
def drainLoop (buf : Str) : List Callback × Option Str := drainGo buf.length buf

/-- Decoder state across reads: the `TextDecoder`'s pending bytes, the text
buffer, and whether a terminal event already halted the stream. -/
structure DecSt where
  pending : List Nat
  buffer : Str
  halted : Bool

/-- Initial decoder state. -/
def initDecSt : DecSt := ⟨[], [], false⟩

/-- Process one network read: decode its bytes (resuming any incomplete
UTF-8 sequence), append to the buffer, and drain complete events.  After the
stream has halted, no further callbacks fire (the source has returned). -/
def feedBytes (st : DecSt) (bs : List Nat) : List Callback × DecSt :=
  if st.halted then ([], st)
  else
    let tp := utf8DecodeStream (st.pending ++ bs)
    let dr := drainLoop (st.buffer ++ tp.1)
    match dr.2 with
    | some buf => (dr.1, ⟨tp.2, buf, false⟩)
    | none => (dr.1, ⟨tp.2, [], true⟩)

/-- Feed a sequence of reads in order. -/
def runReads : DecSt → List (List Nat) → List Callback × DecSt
  | st, [] => ([], st)
  | st, bs :: rest =>
    let c1 := feedBytes st bs
    let c2 := runReads c1.2 rest
    (c1.1 ++ c2.1, c2.2)

/-- The full decoder on a byte stream delivered as a list of reads: the
sequence of callback invocations of `streamFromSse`, including the done
callback fired on clean end of stream when no event already terminated
processing. -/
def decodeStream (reads : List (List Nat)) : List Callback :=
  let r := runReads initDecSt reads
  if r.2.halted then r.1 else r.1 ++ [.done]

theorem splitFirstNN_some_len {l e r : Str} (h : splitFirstNN l = some (e, r)) :
    r.length + 2 ≤ l.length := by
  have := splitFirstNN_decomp h
  subst this
  simp

theorem drainGo_irrel : ∀ (f g : Nat) (buf : Str), buf.length ≤ f → buf.length ≤ g →
    drainGo f buf = drainGo g buf := by
  intro f
  induction f with
  | zero =>
    intro g buf hf _
    have hb : buf = [] := List.length_eq_zero.1 (Nat.le_zero.1 hf)
    subst hb
    cases g <;> simp [drainGo, splitFirstNN]
  | succ f ih =>
    intro g buf hf hg
    cases g with
    | zero =>
      have hb : buf = [] := List.length_eq_zero.1 (Nat.le_zero.1 hg)
      subst hb
      simp [drainGo, splitFirstNN]
    | succ g =>
      simp only [drainGo]
      cases hs : splitFirstNN buf with
      | none => rfl
      | some er =>
        obtain ⟨e, r⟩ := er
        have hlen := splitFirstNN_some_len hs
        dsimp only
        rw [ih g r (by omega) (by omega)]

theorem drainLoop_step (buf : Str) :
    drainLoop buf =
      match splitFirstNN buf with
      | none => ([], some buf)
      | some (e, r) =>
        let cb := handleEvent e
        if cb.2 then (cb.1, none)
        else (cb.1 ++ (drainLoop r).1, (drainLoop r).2) := by
  unfold drainLoop
  cases hb : buf.length with
  | zero =>
    have : buf = [] := List.length_eq_zero.1 (by omega)
    subst this
    simp [drainGo, splitFirstNN]
  | succ n =>
    simp only [drainGo]
    cases hs : splitFirstNN buf with
    | none => rfl
    | some er =>
      obtain ⟨e, r⟩ := er
      have hlen := splitFirstNN_some_len hs
      dsimp only
      rw [drainGo_irrel n r.length r (by omega) (le_refl _)]

theorem drainLoop_append (u v : Str) :
    drainLoop (u ++ v) =
      match drainLoop u with
      | (c, none) => (c, none)
      | (c, some r) => (c ++ (drainLoop (r ++ v)).1, (drainLoop (r ++ v)).2) := by
  suffices h : ∀ (f : Nat) (u v : Str), u.length ≤ f →
      drainLoop (u ++ v) =
        match drainLoop u with
        | (c, none) => (c, none)
        | (c, some r) => (c ++ (drainLoop (r ++ v)).1, (drainLoop (r ++ v)).2) from
    h u.length u v (le_refl _)
  intro f
  induction f with
  | zero =>
    intro u v hf
    have hu : u = [] := List.length_eq_zero.1 (Nat.le_zero.1 hf)
    subst hu
    simp [drainLoop, drainGo, splitFirstNN]
  | succ f ih =>
    intro u v hf
    cases hs : splitFirstNN u with
    | none =>
      rw [drainLoop_step u, hs]
      simp
    | some er =>
      obtain ⟨e, r⟩ := er
      have hlen := splitFirstNN_some_len hs
      rw [drainLoop_step (u ++ v), splitFirstNN_extend v hs, drainLoop_step u, hs]
      dsimp only
      by_cases hhalt : (handleEvent e).2
      · simp [hhalt]
      · simp only [hhalt, if_false, Bool.false_eq_true]
        rw [ih r v (by omega)]
        cases hdr : drainLoop r with
        | mk c st =>
          cases st with
          | none => simp
          | some rr => simp

/-- An extracted raw event: it contains no blank-line delimiter and does not
end with a line feed, so that in `event ++ "\n\n" ++ rest` the first
delimiter occurrence is exactly the appended one. -/
def goodEvent (e : Str) : Prop := splitFirstNN e = none ∧ e.getLast? ≠ some '\n'

instance (e : Str) : Decidable (goodEvent e) := by unfold goodEvent; infer_instance

theorem goodEvent_of_no_nl {e : Str} (h : '\n' ∉ e) : goodEvent e := by
  refine ⟨splitFirstNN_eq_none_of_no_nl h, fun hl => ?_⟩
  exact h (List.mem_of_mem_getLast? hl)

theorem splitFirstNN_goodEvent : ∀ (e t : Str), splitFirstNN e = none →
    e.getLast? ≠ some '\n' → splitFirstNN (e ++ '\n' :: '\n' :: t) = some (e, t) := by
  intro e
  induction e with
  | nil => intro t _ _; simp [splitFirstNN]
  | cons c e' ih =>
    intro t hs hl
    have hs' : splitFirstNN e' = none := by
      cases h' : splitFirstNN e' with
      | none => rfl
      | some pq =>
        exfalso
        by_cases hcond2 : c = '\n' ∧ e'.head? = some '\n'
        · simp [splitFirstNN, hcond2] at hs
        · simp [splitFirstNN, hcond2, h'] at hs
    have hl' : e'.getLast? ≠ some '\n' := by
      rcases e' with _ | ⟨d, ds⟩
      · simp
      · simpa [List.getLast?_cons_cons] using hl
    have hcond : ¬(c = '\n' ∧ (e' ++ '\n' :: '\n' :: t).head? = some '\n') := by
      rintro ⟨hc, hh⟩
      rcases e' with _ | ⟨d, ds⟩
      · subst hc
        simp at hl
      · simp at hh
        rw [splitFirstNN, if_pos ⟨hc, by simp [hh]⟩] at hs
        exact Option.noConfusion hs
    rw [List.cons_append, splitFirstNN, if_neg hcond, ih t hs' hl']
    rfl

/-- Concatenation of framed events, each followed by the blank-line
delimiter. -/
def joinEvents (es : List Str) : Str := (es.map (fun e => e ++ ['\n', '\n'])).flatten

theorem drainLoop_events : ∀ (es : List Str) (rest : Str),
    (∀ e ∈ es, goodEvent e ∧ (handleEvent e).2 = false) →
    drainLoop (joinEvents es ++ rest) =
      ((es.map (fun e => (handleEvent e).1)).flatten ++ (drainLoop rest).1,
        (drainLoop rest).2) := by
  intro es
  induction es with
  | nil => intro rest _; simp [joinEvents]
  | cons e es' ih =>
    intro rest h
    obtain ⟨⟨hg1, hg2⟩, hhalt⟩ := h e (by simp)
    have hjoin : joinEvents (e :: es') ++ rest = e ++ '\n' :: '\n' :: (joinEvents es' ++ rest) := by
      simp [joinEvents]
    rw [hjoin, drainLoop_step, splitFirstNN_goodEvent e _ hg1 hg2]
    dsimp only
    rw [if_neg (by simp [hhalt])]
    rw [ih rest (fun x hx => h x (by simp [hx]))]
    simp

theorem drainLoop_halting_event (pre : List Str) (ev junk : Str)
    (hpre : ∀ e ∈ pre, goodEvent e ∧ (handleEvent e).2 = false)
    (hg : goodEvent ev) (hh : (handleEvent ev).2 = true) :
    drainLoop (joinEvents pre ++ (ev ++ '\n' :: '\n' :: junk)) =
      ((pre.map (fun e => (handleEvent e).1)).flatten ++ (handleEvent ev).1, none) := by
  rw [drainLoop_events pre _ hpre]
  rw [drainLoop_step, splitFirstNN_goodEvent ev junk hg.1 hg.2]
  dsimp only
  rw [if_pos hh]

theorem decodeStream_single (t : Str) :
    decodeStream [utf8Encode t] =
      (drainLoop t).1 ++
        (match (drainLoop t).2 with
         | none => []
         | some _ => [Callback.done]) := by
  unfold decodeStream runReads feedBytes
  simp only [initDecSt, List.nil_append, utf8DecodeStream_encode]
  cases hdr : (drainLoop t).2 with
  | none =>
    cases hdl : drainLoop t with
    | mk c st =>
      rw [hdl] at hdr
      subst hdr
      simp [runReads]
  | some buf =>
    cases hdl : drainLoop t with
    | mk c st =>
      rw [hdl] at hdr
      subst hdr
      simp [runReads]

/-! ### Server encoder: the `/api/chat/stream` route handler (server/index.ts)

On the success path the handler slices the agent's answer into fixed-size
chunks and writes each as `'data: ' + JSON.stringify(chunk) + '\n\n'`,
followed by `'data: [DONE]\n\n'`.  On a validation failure or an agent throw
it writes `'event: error\n'`, one `data:` frame with a JSON message object,
and the sentinel frame. -/

/-- The chunk size of the route handler (`const chunkSize = 24`). -/
def chunkSize : Nat := 24

/-- The `data: ` frame marker including its following space. -/
def dataSp : Str := ['d', 'a', 't', 'a', ':', ' ']

/-- Chunks `answer.slice(i, i + n)` of the encoder loop, fuelled
(`a.length` is enough fuel whenever `0 < n`). -/
def chunkGo : Nat → Str → Nat → List Str
  | 0, a, _ => if a = [] then [] else [a]
  | f + 1, a, n => if a = [] then [] else a.take n :: chunkGo f (a.drop n) n

/-- The chunk list of the encoder loop. -/
def chunkList (a : Str) (n : Nat) : List Str := chunkGo a.length a n

/-- The encoder output of the success path: one `data:` frame per chunk (the
chunk JSON-stringified), then the sentinel frame.  `joinEvents` concatenates
the per-frame writes of the loop. -/
def encodeAnswerFrames (a : Str) (n : Nat) : Str :=
  joinEvents ((chunkList a n).map (fun c => dataSp ++ jsonEscape c)) ++
    (dataSp ++ doneS ++ ['\n', '\n'])

theorem chunkList_flatten (a : Str) (n : Nat) (hn : 0 < n) :
    (chunkList a n).flatten = a := by
  suffices h : ∀ (f : Nat) (a : Str), a.length ≤ f → (chunkGo f a n).flatten = a from
    h a.length a (le_refl _)
  intro f
  induction f with
  | zero =>
    intro a ha
    have : a = [] := List.length_eq_zero.1 (Nat.le_zero.1 ha)
    subst this
    simp [chunkGo]
  | succ f ih =>
    intro a ha
    by_cases hae : a = []
    · subst hae; simp [chunkGo]
    · simp only [chunkGo, if_neg hae, List.flatten_cons]
      rw [ih (a.drop n) (by simp; omega)]
      exact List.take_append_drop n a

theorem splitOnNl_no_nl : ∀ {l : Str}, '\n' ∉ l → splitOnNl l = [l] := by
  intro l
  induction l with
  | nil => intro _; rfl
  | cons c cs ih =>
    intro h
    have hc : ¬c = '\n' := fun hx => h (by simp [hx])
    rw [splitOnNl, if_neg hc, ih (fun hm => h (by simp [hm]))]

theorem trimStart_cons_space (p : Str) : trimStart (' ' :: p) = trimStart p := by
  simp [trimStart, List.dropWhile_cons, jsWs]

/-- Data payload and declared type of a single-line `data: `-headed event. -/
theorem dataFrame_fields (p : Str) (hnl : '\n' ∉ p) (hws : trimStart p = p) :
    dataOf (dataSp ++ p) = some p ∧ eventTypeOf (dataSp ++ p) = none := by
  have hnl2 : '\n' ∉ dataSp ++ p := by
    intro hm
    rcases List.mem_append.1 hm with h | h
    · exact absurd h (by decide)
    · exact hnl h
  have hsp : splitOnNl (dataSp ++ p) = [dataSp ++ p] := splitOnNl_no_nl hnl2
  constructor
  · unfold dataOf dataLinesOf
    rw [hsp]
    have hfil : (List.filter (fun l => dataMarker.isPrefixOf l) [dataSp ++ p]).map
        (fun l => trimStart (l.drop 5)) = [trimStart p] := by
      simp [dataMarker, dataSp, List.isPrefixOf, List.filter, trimStart, List.dropWhile, jsWs]
    rw [hfil, hws]
    simp [List.intercalate]
  · unfold eventTypeOf
    rw [hsp]
    have : (List.find? (fun l => eventMarker.isPrefixOf l) [dataSp ++ p]) = none := by
      simp [eventMarker, dataSp, List.isPrefixOf, List.find?]
    rw [this]
    rfl

theorem trimStart_jsonEscape (c : Str) : trimStart (jsonEscape c) = jsonEscape c := by
  simp [trimStart, jsonEscape, List.dropWhile, jsWs]

theorem jsonEscape_ne_doneS (c : Str) : jsonEscape c ≠ doneS := by
  intro h
  exact absurd (congrArg List.head? h) (by simp [jsonEscape, doneS])

/-- A chunk frame of the encoder dispatches exactly one chunk callback with
the original chunk text and does not terminate the stream. -/
theorem handleEvent_chunk_frame (c : Str) :
    handleEvent (dataSp ++ jsonEscape c) = ([.chunk c], false) := by
  obtain ⟨hd, he⟩ := dataFrame_fields (jsonEscape c) (jsonEscape_no_nl c) (trimStart_jsonEscape c)
  unfold handleEvent
  rw [hd, he]
  dsimp only
  rw [if_neg (jsonEscape_ne_doneS c)]
  rw [if_neg (by simp), if_neg (by simp)]
  unfold chunkCbs
  rw [jsonParse_jsonEscape]

/-- The sentinel frame dispatches the done callback and terminates. -/
theorem handleEvent_done_frame : handleEvent (dataSp ++ doneS) = ([.done], true) := by
  obtain ⟨hd, he⟩ := dataFrame_fields doneS (by decide) (by decide)
  unfold handleEvent
  rw [hd, he]
  dsimp only
  rw [if_pos rfl]

theorem goodEvent_chunk_frame (c : Str) : goodEvent (dataSp ++ jsonEscape c) := by
  apply goodEvent_of_no_nl
  intro hm
  rcases List.mem_append.1 hm with h | h
  · exact absurd h (by decide)
  · exact jsonEscape_no_nl c h

theorem goodEvent_done_frame : goodEvent (dataSp ++ doneS) := by decide

theorem flatten_map_singleton {α β : Type} (g : α → β) (l : List α) :
    (l.map (fun a => [g a])).flatten = l.map g := by
  induction l with
  | nil => rfl
  | cons a as ih => simp [ih]

/-- C1: for every answer string `A` and positive chunk size `N`, encoding `A`
on the server (slicing into `N`-character chunks, each written as a
JSON-encoded `data:` frame, then the `[DONE]` sentinel frame) and decoding
the byte stream with the client decoder yields exactly one chunk callback per
chunk, in order, whose payloads concatenate to `A`, followed by one done
callback. -/
theorem c1_encode_decode_roundtrip (A : Str) (N : Nat) (hN : 0 < N) :
    decodeStream [utf8Encode (encodeAnswerFrames A N)] =
      (chunkList A N).map Callback.chunk ++ [Callback.done] ∧
    (chunkList A N).flatten = A := by
  refine ⟨?_, chunkList_flatten A N hN⟩
  have hshape : encodeAnswerFrames A N =
      joinEvents ((chunkList A N).map (fun c => dataSp ++ jsonEscape c)) ++
        ((dataSp ++ doneS) ++ '\n' :: '\n' :: ([] : Str)) := by
    simp [encodeAnswerFrames]
  rw [hshape, decodeStream_single]
  rw [drainLoop_halting_event _ _ _
    (fun e he => by
      rcases List.mem_map.1 he with ⟨c, _, rfl⟩
      exact ⟨goodEvent_chunk_frame c, by rw [handleEvent_chunk_frame]⟩)
    goodEvent_done_frame (by rw [handleEvent_done_frame])]
  dsimp only
  rw [handleEvent_done_frame]
  simp only [List.map_map]
  have hmap : (chunkList A N).map ((fun e => (handleEvent e).1) ∘ fun c => dataSp ++ jsonEscape c)
      = (chunkList A N).map (fun c => [Callback.chunk c]) := by
    apply List.map_congr_left
    intro c _
    simp [Function.comp, handleEvent_chunk_frame]
  rw [hmap, flatten_map_singleton]
  simp

/-! ### Split-insensitivity machinery

`feedBytes` composes: feeding `a ++ b` in one read is observationally the
same as feeding `a` then `b` — the same callbacks, and the same state except
that once halted the pending bytes are unobservable (the source has already
returned from `streamFromSse`). -/

/-- Observational equivalence of decoder states: equal, or both halted (a
halted decoder never runs again, so its pending bytes and buffer are
unobservable). -/
def stEquiv (s1 s2 : DecSt) : Prop := s1 = s2 ∨ (s1.halted = true ∧ s2.halted = true)

theorem stEquiv_refl (s : DecSt) : stEquiv s s := Or.inl rfl

theorem stEquiv_halted {s1 s2 : DecSt} (h : stEquiv s1 s2) : s1.halted = s2.halted := by
  rcases h with rfl | ⟨h1, h2⟩
  · rfl
  · rw [h1, h2]

theorem feedBytes_append (st : DecSt) (a b : List Nat) :
    (feedBytes st (a ++ b)).1 = (feedBytes st a).1 ++ (feedBytes (feedBytes st a).2 b).1 ∧
    stEquiv (feedBytes st (a ++ b)).2 (feedBytes (feedBytes st a).2 b).2 := by
  by_cases hh : st.halted
  · simp [feedBytes, hh, stEquiv_refl]
  · have hu : utf8DecodeStream (st.pending ++ (a ++ b)) =
        ((utf8DecodeStream (st.pending ++ a)).1 ++
          (utf8DecodeStream ((utf8DecodeStream (st.pending ++ a)).2 ++ b)).1,
         (utf8DecodeStream ((utf8DecodeStream (st.pending ++ a)).2 ++ b)).2) := by
      rw [← List.append_assoc]
      exact utf8DecodeStream_append (st.pending ++ a) b
    set t1 := (utf8DecodeStream (st.pending ++ a)).1 with ht1
    set p1 := (utf8DecodeStream (st.pending ++ a)).2 with hp1
    cases hd1 : drainLoop (st.buffer ++ t1) with
    | mk c1 o1 =>
      have hfa : feedBytes st a =
          (c1, match o1 with
               | some buf => ⟨p1, buf, false⟩
               | none => ⟨p1, [], true⟩) := by
        simp only [feedBytes, hh, if_false, Bool.false_eq_true, ← ht1, ← hp1, hd1]
        cases o1 <;> rfl
      have hdd : drainLoop (st.buffer ++ (t1 ++ (utf8DecodeStream (p1 ++ b)).1)) =
          match drainLoop (st.buffer ++ t1) with
          | (c, none) => (c, none)
          | (c, some r) => (c ++ (drainLoop (r ++ (utf8DecodeStream (p1 ++ b)).1)).1,
              (drainLoop (r ++ (utf8DecodeStream (p1 ++ b)).1)).2) := by
        rw [← List.append_assoc]
        exact drainLoop_append (st.buffer ++ t1) _
      cases o1 with
      | none =>
        -- the first piece already contained a terminal event
        have hlhs : feedBytes st (a ++ b) =
            (c1, ⟨(utf8DecodeStream (p1 ++ b)).2, [], true⟩) := by
          simp only [feedBytes, hh, if_false, Bool.false_eq_true, hu]
          rw [hdd, hd1]
        rw [hlhs, hfa]
        constructor
        · simp [feedBytes]
        · right
          constructor
          · rfl
          · simp [feedBytes]
      | some r1 =>
        have hlhs : feedBytes st (a ++ b) =
            (c1 ++ (drainLoop (r1 ++ (utf8DecodeStream (p1 ++ b)).1)).1,
              match (drainLoop (r1 ++ (utf8DecodeStream (p1 ++ b)).1)).2 with
              | some buf => ⟨(utf8DecodeStream (p1 ++ b)).2, buf, false⟩
              | none => ⟨(utf8DecodeStream (p1 ++ b)).2, [], true⟩) := by
          simp only [feedBytes, hh, if_false, Bool.false_eq_true, hu]
          rw [hdd, hd1]
          dsimp only
          cases (drainLoop (r1 ++ (utf8DecodeStream (p1 ++ b)).1)).2 <;> rfl
        have hfb : feedBytes (⟨p1, r1, false⟩ : DecSt) b =
            ((drainLoop (r1 ++ (utf8DecodeStream (p1 ++ b)).1)).1,
              match (drainLoop (r1 ++ (utf8DecodeStream (p1 ++ b)).1)).2 with
              | some buf => ⟨(utf8DecodeStream (p1 ++ b)).2, buf, false⟩
              | none => ⟨(utf8DecodeStream (p1 ++ b)).2, [], true⟩) := by
          simp only [feedBytes]
          cases (drainLoop (r1 ++ (utf8DecodeStream (p1 ++ b)).1)).2 <;> rfl
        rw [hlhs, hfa, hfb]
        constructor
        · rfl
        · exact stEquiv_refl _

/-- Model of `JSON.stringify({ message })`. -/
def jsonStringifyMsg (m : Str) : Str :=
  '\x7b' :: (jsonEscape messageKey ++ ':' :: (jsonEscape m ++ ['\x7d']))

/-- The encoder output of the error paths of the route handler: the three
writes `'event: error\n'`, `'data: ' + JSON.stringify({ message }) + '\n\n'`
and `'data: [DONE]\n\n'`. -/
def encodeErrorFrames (m : Str) : Str :=
  (eventMarker ++ [' '] ++ errorS ++ ['\n']) ++
    (dataSp ++ jsonStringifyMsg m ++ ['\n', '\n']) ++
    (dataSp ++ doneS ++ ['\n', '\n'])

/-- Invariant of reachable decoder states: halted, or the pending bytes are
an undecodable remainder and the buffer is free of the event delimiter. -/
def decInv (st : DecSt) : Prop :=
  st.halted = true ∨ (decChar st.pending = none ∧ splitFirstNN st.buffer = none)

theorem drainLoop_rest_no_sep {buf r : Str} (h : (drainLoop buf).2 = some r) :
    splitFirstNN r = none := by
  suffices hgen : ∀ (f : Nat) (buf r : Str), buf.length ≤ f → (drainGo f buf).2 = some r →
      splitFirstNN r = none from hgen buf.length buf r (le_refl _) h
  intro f
  induction f with
  | zero =>
    intro buf r hf h
    have : buf = [] := List.length_eq_zero.1 (Nat.le_zero.1 hf)
    subst this
    simp only [drainGo, Option.some.injEq] at h
    subst h
    rfl
  | succ f ih =>
    intro buf r hf h
    simp only [drainGo] at h
    cases hs : splitFirstNN buf with
    | none =>
      rw [hs] at h
      simp at h
      subst h
      exact hs
    | some er =>
      obtain ⟨e, rr⟩ := er
      rw [hs] at h
      dsimp only at h
      by_cases hhalt : (handleEvent e).2
      · rw [if_pos hhalt] at h
        simp at h
      · rw [if_neg hhalt] at h
        exact ih rr r (by have := splitFirstNN_some_len hs; omega) h

theorem feedBytes_nil {st : DecSt} (hinv : decInv st) : feedBytes st [] = ([], st) := by
  cases st with
  | mk pending buffer halted =>
    cases halted with
    | true => simp [feedBytes]
    | false =>
      rcases hinv with h | ⟨hp, hb⟩
      · simp at h
      · simp only [feedBytes]
        rw [if_neg (by simp)]
        have hu : utf8DecodeStream (pending ++ []) = ([], pending) := by
          rw [List.append_nil, utf8DecodeStream_step]
          simp only at hp
          rw [hp]
        have hd : drainLoop (buffer ++ []) = ([], some buffer) := by
          rw [List.append_nil, drainLoop_step]
          simp only at hb
          rw [hb]
        rw [hu, hd]

theorem decInv_feedBytes (st : DecSt) (bs : List Nat) (hinv : decInv st) :
    decInv (feedBytes st bs).2 := by
  by_cases hh : st.halted
  · simp only [feedBytes, hh, if_true]
    exact hinv
  · simp only [feedBytes, hh, if_false, Bool.false_eq_true]
    cases hd : (drainLoop (st.buffer ++ (utf8DecodeStream (st.pending ++ bs)).1)).2 with
    | none => left; rfl
    | some buf =>
      right
      exact ⟨utf8DecodeStream_pending _, drainLoop_rest_no_sep hd⟩

theorem stEquiv_symm {s1 s2 : DecSt} (h : stEquiv s1 s2) : stEquiv s2 s1 := by
  rcases h with rfl | ⟨h1, h2⟩
  · exact stEquiv_refl _
  · exact Or.inr ⟨h2, h1⟩

theorem stEquiv_trans {s1 s2 s3 : DecSt} (h : stEquiv s1 s2) (h2 : stEquiv s2 s3) :
    stEquiv s1 s3 := by
  rcases h with rfl | ⟨ha, hb⟩
  · exact h2
  · rcases h2 with rfl | ⟨hc, hd⟩
    · exact Or.inr ⟨ha, hb⟩
    · exact Or.inr ⟨ha, hd⟩

theorem feedBytes_congr {s1 s2 : DecSt} (b : List Nat) (h : stEquiv s1 s2) :
    (feedBytes s1 b).1 = (feedBytes s2 b).1 ∧
    stEquiv (feedBytes s1 b).2 (feedBytes s2 b).2 := by
  rcases h with rfl | ⟨h1, h2⟩
  · exact ⟨rfl, stEquiv_refl _⟩
  · constructor
    · simp [feedBytes, h1, h2]
    · simp only [feedBytes, h1, h2, if_true]
      exact Or.inr ⟨h1, h2⟩

theorem decInv_congr {s1 s2 : DecSt} (h : stEquiv s1 s2) (hinv : decInv s1) : decInv s2 := by
  rcases h with rfl | ⟨_, h2⟩
  · exact hinv
  · exact Or.inl h2

theorem runReads_flatten : ∀ (ps : List (List Nat)) (st : DecSt), decInv st →
    (runReads st ps).1 = (feedBytes st ps.flatten).1 ∧
    stEquiv (runReads st ps).2 (feedBytes st ps.flatten).2 := by
  intro ps
  induction ps with
  | nil =>
    intro st hinv
    simp only [runReads, List.flatten_nil, feedBytes_nil hinv]
    exact ⟨by trivial, stEquiv_refl _⟩
  | cons p ps ih =>
    intro st hinv
    have hstep := feedBytes_append st p ps.flatten
    have hinv1 : decInv (feedBytes st p).2 := decInv_feedBytes st p hinv
    obtain ⟨ihc, ihs⟩ := ih (feedBytes st p).2 hinv1
    constructor
    · simp only [runReads, List.flatten_cons]
      rw [hstep.1, ihc]
    · simp only [runReads, List.flatten_cons]
      exact stEquiv_trans ihs (stEquiv_symm hstep.2)

/-- Splitting a byte stream into reads at arbitrary boundaries does not
change the decoder's callback sequence. -/
theorem decodeStream_flatten (ps : List (List Nat)) :
    decodeStream ps = decodeStream [ps.flatten] := by
  have hinv : decInv initDecSt := Or.inr ⟨rfl, rfl⟩
  obtain ⟨hc, hs⟩ := runReads_flatten ps initDecSt hinv
  have hone : runReads initDecSt [ps.flatten] = feedBytes initDecSt ps.flatten := by
    simp only [runReads]
    exact Prod.ext (by simp) rfl
  simp only [decodeStream]
  rw [hone, hc, stEquiv_halted hs]

/-- C2: for every byte sequence emitted by the encoder (an answer-frame
stream or an error-frame stream) and every way of splitting it into
successive reads — including inside a multi-byte UTF-8 character — feeding
the pieces to the decoder in order produces exactly the callback sequence of
feeding the whole sequence in one read. -/
theorem c2_split_insensitive (pieces : List (List Nat)) (A m : Str)
    (h : pieces.flatten = utf8Encode (encodeAnswerFrames A chunkSize) ∨
      pieces.flatten = utf8Encode (encodeErrorFrames m)) :
    decodeStream pieces = decodeStream [pieces.flatten] := by
  rcases h with h | h <;> exact decodeStream_flatten pieces

/-- C3: whenever the decoder extracts an event whose data payload is the
literal `[DONE]` — the earlier extracted events being non-terminal — it
invokes the done callback and stops: the event's declared type is
unconstrained, and the bytes after the sentinel (`junk`, arbitrary) are never
parsed and produce no callbacks. -/
theorem c3_done_terminates (pre : List Str) (ev junk : Str)
    (hpre : ∀ e ∈ pre, goodEvent e ∧ (handleEvent e).2 = false)
    (hg : goodEvent ev) (hd : dataOf ev = some doneS) :
    decodeStream [utf8Encode (joinEvents pre ++ (ev ++ '\n' :: '\n' :: junk))] =
      (pre.map (fun e => (handleEvent e).1)).flatten ++ [Callback.done] := by
  have hev : handleEvent ev = ([.done], true) := by
    unfold handleEvent
    rw [hd]
    dsimp only
    rw [if_pos rfl]
  rw [decodeStream_single, drainLoop_halting_event pre ev junk hpre hg (by rw [hev])]
  dsimp only
  rw [hev]
  simp

/-- C4 (amended): an extracted event of declared type `error` — the earlier
extracted events being non-terminal and the payload not being the `[DONE]`
sentinel — produces exactly one error callback (kind `server`, not
retryable) and terminates the stream: no chunk, usage, done or further error
callback fires afterwards, whatever bytes follow.  The message is the `message`
field of the JSON-parsed payload when that field is a nonempty string, and
the raw payload when parsing fails and the payload is nonempty; otherwise
the fallback `Unknown error` is used. -/
theorem c4_error_terminal (pre : List Str) (ev junk d : Str)
    (hpre : ∀ e ∈ pre, goodEvent e ∧ (handleEvent e).2 = false)
    (hg : goodEvent ev) (ht : eventTypeOf ev = some errorS)
    (hd : dataOf ev = some d) (hne : d ≠ doneS) :
    decodeStream [utf8Encode (joinEvents pre ++ (ev ++ '\n' :: '\n' :: junk))] =
      (pre.map (fun e => (handleEvent e).1)).flatten ++
        [Callback.error ⟨serverS, errMsgVal d, false⟩] ∧
    (jsonParse d = none → d ≠ [] → errMsgVal d = Jv.jstr d) ∧
    (∀ j s, jsonParse d = some j → jGet j messageKey = some (Jv.jstr s) → s ≠ [] →
      errMsgVal d = Jv.jstr s) := by
  refine ⟨?_, ?_, ?_⟩
  · have hev : handleEvent ev = ([.error ⟨serverS, errMsgVal d, false⟩], true) := by
      unfold handleEvent
      rw [hd]
      dsimp only
      rw [if_neg hne, if_pos ht]
    rw [decodeStream_single, drainLoop_halting_event pre ev junk hpre hg (by rw [hev])]
    dsimp only
    rw [hev]
    simp
  · intro hp hdne
    unfold errMsgVal
    rw [hp]
    dsimp only
    rw [if_neg hdne]
  · intro j s hj hget hs
    cases j with
    | jnull => simp [jGet] at hget
    | jbool b => simp [jGet] at hget
    | jnum z r => simp [jGet] at hget
    | jstr t => simp [jGet] at hget
    | jarr xs => simp [jGet] at hget
    | jobj ms =>
      have htru : jTruthy (Jv.jstr s) = true := by
        simp [jTruthy, List.isEmpty_iff, hs]
      simp only [errMsgVal, hj, hget, htru, if_true]

/-- C5 (amended): an extracted event that is not `[DONE]`, not of type
`error` and not of type `usage` dispatches `chunkCbs` and continues (does not
terminate the stream): one chunk callback with the decoded string when the
payload parses as a JSON string, one chunk callback with the raw payload when
JSON parsing fails, and — the correction — no callback at all when the
payload parses as JSON to a non-string value. -/
theorem c5_default_event (ev d : Str) (hd : dataOf ev = some d) (hne : d ≠ doneS)
    (hterr : eventTypeOf ev ≠ some errorS) (htus : eventTypeOf ev ≠ some usageS) :
    handleEvent ev = (chunkCbs d, false) ∧
    (∀ s, jsonParse d = some (Jv.jstr s) → chunkCbs d = [Callback.chunk s]) ∧
    (jsonParse d = none → chunkCbs d = [Callback.chunk d]) ∧
    (∀ j, jsonParse d = some j → (∀ s, j ≠ Jv.jstr s) → chunkCbs d = []) := by
  refine ⟨?_, ?_, ?_, ?_⟩
  · unfold handleEvent
    rw [hd]
    dsimp only
    rw [if_neg hne, if_neg hterr, if_neg htus]
  · intro s hj
    unfold chunkCbs
    rw [hj]
  · intro hj
    unfold chunkCbs
    rw [hj]
  · intro j hj hns
    unfold chunkCbs
    rw [hj]
    cases j with
    | jstr s => exact absurd rfl (hns s)
    | jnull => rfl
    | jbool b => rfl
    | jnum z r => rfl
    | jarr xs => rfl
    | jobj ms => rfl

/-- C5 counterexample: the event `data: 42` is not `[DONE]`, has no declared
type, and its payload parses as the JSON number `42`; the claim demands
exactly one chunk callback, but the decoder fires none — the full stream
`data: 42` then `data: [DONE]` produces only the done callback. -/
theorem c5_counterexample :
    dataOf ("data: 42".data) = some ['4', '2'] ∧
    eventTypeOf ("data: 42".data) = none ∧
    jsonParse ['4', '2'] = some (Jv.jnum false ['4', '2']) ∧
    handleEvent ("data: 42".data) = ([], false) ∧
    decodeStream [utf8Encode ("data: 42\n\ndata: [DONE]\n\n".data)] = [Callback.done] :=
  ⟨rfl, rfl, rfl, rfl, rfl⟩

/-- C4 counterexample: an `error` event with empty data payload: JSON parsing
of the payload fails, yet the error callback's message is the fallback
`Unknown error`, not the raw (empty) payload the claim promises. -/
theorem c4_counterexample :
    eventTypeOf ("event: error\ndata:".data) = some errorS ∧
    dataOf ("event: error\ndata:".data) = some [] ∧
    jsonParse [] = none ∧
    decodeStream [utf8Encode ("event: error\ndata:\n\n".data)] =
      [Callback.error ⟨serverS, Jv.jstr unknownErrorS, false⟩] ∧
    Jv.jstr unknownErrorS ≠ Jv.jstr [] :=
  ⟨rfl, rfl, rfl, rfl, by simp [unknownErrorS]⟩

theorem c1_encode_decode_roundtrip_witness :
    0 < 5 ∧
    (decodeStream [utf8Encode (encodeAnswerFrames ("hello world".data) 5)] =
        (chunkList ("hello world".data) 5).map Callback.chunk ++ [Callback.done] ∧
      (chunkList ("hello world".data) 5).flatten = "hello world".data) :=
  ⟨by decide, c1_encode_decode_roundtrip ("hello world".data) 5 (by decide)⟩

theorem c2_split_insensitive_witness :
    ([(utf8Encode (encodeAnswerFrames ("é".data) chunkSize)).take 8,
        (utf8Encode (encodeAnswerFrames ("é".data) chunkSize)).drop 8] :
          List (List Nat)).flatten =
      utf8Encode (encodeAnswerFrames ("é".data) chunkSize) ∧
    decodeStream [(utf8Encode (encodeAnswerFrames ("é".data) chunkSize)).take 8,
        (utf8Encode (encodeAnswerFrames ("é".data) chunkSize)).drop 8] =
      decodeStream [([(utf8Encode (encodeAnswerFrames ("é".data) chunkSize)).take 8,
        (utf8Encode (encodeAnswerFrames ("é".data) chunkSize)).drop 8] :
          List (List Nat)).flatten] :=
  ⟨by simp, c2_split_insensitive _ ("é".data) [] (Or.inl (by simp))⟩

theorem c3_done_terminates_witness :
    (goodEvent ("data: [DONE]".data) ∧ dataOf ("data: [DONE]".data) = some doneS) ∧
    decodeStream [utf8Encode (joinEvents ["data: \"a\"".data] ++
        ("data: [DONE]".data ++ '\n' :: '\n' :: "data: \"never parsed\"\n\n".data))] =
      [Callback.chunk ['a'], Callback.done] :=
  ⟨⟨by decide, by decide⟩, by
    have h := c3_done_terminates ["data: \"a\"".data] ("data: [DONE]".data)
      ("data: \"never parsed\"\n\n".data)
      (by intro e he; simp at he; subst he; exact ⟨by decide, by decide⟩)
      (by decide) (by decide)
    simpa using h⟩

theorem c4_error_terminal_witness :
    (goodEvent ("event: error\ndata: \x7b\"message\":\"boom\"\x7d".data) ∧
      eventTypeOf ("event: error\ndata: \x7b\"message\":\"boom\"\x7d".data) = some errorS ∧
      dataOf ("event: error\ndata: \x7b\"message\":\"boom\"\x7d".data) =
        some ("\x7b\"message\":\"boom\"\x7d".data) ∧
      "\x7b\"message\":\"boom\"\x7d".data ≠ doneS) ∧
    decodeStream [utf8Encode (joinEvents [] ++
        ("event: error\ndata: \x7b\"message\":\"boom\"\x7d".data ++
          '\n' :: '\n' :: "data: \"after\"\n\n".data))] =
      [Callback.error ⟨serverS, errMsgVal ("\x7b\"message\":\"boom\"\x7d".data), false⟩] ∧
    errMsgVal ("\x7b\"message\":\"boom\"\x7d".data) = Jv.jstr ("boom".data) :=
  ⟨⟨by decide, by decide, by decide, by decide⟩, by
    have h := c4_error_terminal [] ("event: error\ndata: \x7b\"message\":\"boom\"\x7d".data)
      ("data: \"after\"\n\n".data) ("\x7b\"message\":\"boom\"\x7d".data)
      (by simp) (by decide) (by decide) (by decide) (by decide)
    simpa using h.1, rfl⟩

theorem c5_default_event_witness :
    (dataOf ("data: \"tok\"".data) = some ("\"tok\"".data) ∧
      "\"tok\"".data ≠ doneS ∧
      eventTypeOf ("data: \"tok\"".data) ≠ some errorS ∧
      eventTypeOf ("data: \"tok\"".data) ≠ some usageS) ∧
    handleEvent ("data: \"tok\"".data) = (chunkCbs ("\"tok\"".data), false) ∧
    chunkCbs ("\"tok\"".data) = [Callback.chunk ("tok".data)] :=
  ⟨⟨by decide, by decide, by decide, by decide⟩, by
    have h := c5_default_event ("data: \"tok\"".data) ("\"tok\"".data)
      (by decide) (by decide) (by decide) (by decide)
    exact ⟨h.1, h.2.1 ("tok".data) rfl⟩⟩

theorem parseVal_msgObj (m : Str) (f : Nat) :
    parseVal (f + 3) (jsonStringifyMsg m) = some (.jobj [(messageKey, .jstr m)], []) := by
  simp [jsonStringifyMsg, parseVal, parseMembers, jsonEscape, skipWs, jsWs,
    parseStrBody_escBody_tail, List.dropWhile]

theorem jsonParse_msgObj (m : Str) :
    jsonParse (jsonStringifyMsg m) = some (.jobj [(messageKey, .jstr m)]) := by
  unfold jsonParse
  have hskip : skipWs (jsonStringifyMsg m) = jsonStringifyMsg m := by
    simp [skipWs, jsonStringifyMsg, jsWs, List.dropWhile]
  rw [hskip]
  have hL : 1 ≤ (jsonStringifyMsg m).length := by simp [jsonStringifyMsg]
  rw [show 2 * (jsonStringifyMsg m).length + 2 = (2 * (jsonStringifyMsg m).length - 1) + 3 by
    omega]
  rw [parseVal_msgObj]
  simp [skipWs]

/-! ### Request validation and the route handler (server/index.ts)

`parseChatBody` models `chatSchema.safeParse(req.body)`: the body must be an
object whose `messages` field is a nonempty array of objects with `role` in
`user`/`assistant` and a string `content`.  `chatStreamHandler` models the
route handler after the headers are flushed; the agent call is a parameter
(an `Except` result models `runAgent` either resolving or throwing). -/

/-- The key `"messages"`. -/
def messagesKey : Str := ['m', 'e', 's', 's', 'a', 'g', 'e', 's']

/-- The key `"role"`. -/
def roleKey : Str := ['r', 'o', 'l', 'e']

/-- The key `"content"`. -/
def contentKey : Str := ['c', 'o', 'n', 't', 'e', 'n', 't']

/-- The string `"user"`. -/
def userS : Str := ['u', 's', 'e', 'r']

/-- The string `"assistant"`. -/
def assistantS : Str := ['a', 's', 's', 'i', 's', 't', 'a', 'n', 't']

/-- The string `"Invalid request"`. -/
def invalidRequestS : Str :=
  ['I', 'n', 'v', 'a', 'l', 'i', 'd', ' ', 'r', 'e', 'q', 'u', 'e', 's', 't']

/-- A conversation turn. -/
structure ChatMessage where
  role : Str
  content : Str

/-- Model of the zod element schema
`z.object({ role: z.enum(["user", "assistant"]), content: z.string() })`. -/
def parseMsg (j : Jv) : Option ChatMessage :=
  match jGet j roleKey, jGet j contentKey with
  | some (.jstr r), some (.jstr c) =>
    if r = userS ∨ r = assistantS then some ⟨r, c⟩ else none
  | _, _ => none

/-- Model of `chatSchema.safeParse(req.body)`. -/
def parseChatBody (body : Jv) : Option (List ChatMessage) :=
  match jGet body messagesKey with
  | some (.jarr []) => none
  | some (.jarr xs) => xs.mapM parseMsg
  | _ => none

/-- The `/api/chat/stream` route handler: on a validation failure, the error
frames with message `Invalid request`; otherwise the agent is invoked and its
answer is chunk-encoded, or — when it throws — its message is sent as error
frames.  (`err instanceof Error ? err.message : String(err)` is modelled by
the thrown message itself.) -/
def chatStreamHandler (body : Jv) (agent : List ChatMessage → Except Str Str) : Str :=
  match parseChatBody body with
  | none => encodeErrorFrames invalidRequestS
  | some msgs =>
    match agent msgs with
    | .ok answer => encodeAnswerFrames answer chunkSize
    | .error e => encodeErrorFrames e

/-- The raw event text of the error frame (up to its delimiter):
`event: error` line followed by the `data:` line with the message object. -/
def errorEventRaw (m : Str) : Str :=
  eventMarker ++ [' '] ++ errorS ++ '\n' :: (dataSp ++ jsonStringifyMsg m)

theorem jsonStringifyMsg_no_nl (m : Str) : '\n' ∉ jsonStringifyMsg m := by
  intro hm
  simp only [jsonStringifyMsg, List.mem_cons, List.mem_append] at hm
  rcases hm with h | h | h | h | h
  · exact absurd h (by decide)
  · exact absurd h (by decide)
  · exact absurd h (by decide)
  · exact jsonEscape_no_nl m h
  · simp at h

theorem splitOnNl_two {A B : Str} (hA : '\n' ∉ A) (hB : '\n' ∉ B) :
    splitOnNl (A ++ '\n' :: B) = [A, B] := by
  induction A with
  | nil =>
    rw [List.nil_append, splitOnNl, if_pos rfl, splitOnNl_no_nl hB]
  | cons c A' ih =>
    have hc : ¬c = '\n' := fun hx => hA (by simp [hx])
    rw [List.cons_append, splitOnNl, if_neg hc, ih (fun hm => hA (by simp [hm]))]

theorem errorEventRaw_lines (m : Str) :
    splitOnNl (errorEventRaw m) =
      [eventMarker ++ [' '] ++ errorS, dataSp ++ jsonStringifyMsg m] := by
  have hB : '\n' ∉ dataSp ++ jsonStringifyMsg m := by
    intro hm
    rcases List.mem_append.1 hm with h | h
    · exact absurd h (by decide)
    · exact jsonStringifyMsg_no_nl m h
  have h2 := splitOnNl_two (A := eventMarker ++ [' '] ++ errorS) (B := dataSp ++ jsonStringifyMsg m)
    (by decide) hB
  have hsh : errorEventRaw m =
      (eventMarker ++ [' '] ++ errorS) ++ '\n' :: (dataSp ++ jsonStringifyMsg m) := by
    simp [errorEventRaw]
  rw [hsh, h2]

theorem trimStart_msgObj (m : Str) : trimStart (jsonStringifyMsg m) = jsonStringifyMsg m := by
  simp [trimStart, jsonStringifyMsg, List.dropWhile, jsWs]

theorem errorEventRaw_type (m : Str) : eventTypeOf (errorEventRaw m) = some errorS := by
  unfold eventTypeOf
  rw [errorEventRaw_lines]
  rw [List.find?_cons_of_pos _ (by decide)]
  decide

theorem errorEventRaw_data (m : Str) :
    dataOf (errorEventRaw m) = some (jsonStringifyMsg m) := by
  unfold dataOf dataLinesOf
  rw [errorEventRaw_lines]
  have hfil : List.filter (fun l => dataMarker.isPrefixOf l)
      [eventMarker ++ [' '] ++ errorS, dataSp ++ jsonStringifyMsg m] =
      [dataSp ++ jsonStringifyMsg m] := by
    rw [List.filter_cons_of_neg (by decide), List.filter_cons_of_pos
      (by simp [dataMarker, dataSp, List.isPrefixOf]), List.filter_nil]
  rw [hfil]
  have hmap : trimStart ((dataSp ++ jsonStringifyMsg m).drop 5) = jsonStringifyMsg m := by
    have : (dataSp ++ jsonStringifyMsg m).drop 5 = ' ' :: jsonStringifyMsg m := by
      simp [dataSp]
    rw [this, trimStart_cons_space, trimStart_msgObj]
  simp only [List.map_cons, List.map_nil, hmap]
  simp [List.intercalate]

theorem errMsgVal_msgObj {m : Str} (hm : m ≠ []) :
    errMsgVal (jsonStringifyMsg m) = Jv.jstr m := by
  unfold errMsgVal
  rw [jsonParse_msgObj]
  have hget : jGet (Jv.jobj [(messageKey, Jv.jstr m)]) messageKey = some (Jv.jstr m) := by
    simp [jGet]
  simp only [hget]
  have htru : jTruthy (Jv.jstr m) = true := by
    simp [jTruthy, List.isEmpty_iff, hm]
  simp [htru]

/-- C6: on a validation failure or an agent throw the route handler writes
exactly one error frame — declared kind `error`, carrying a JSON object with
the message — immediately followed by the `[DONE]` sentinel frame, and
nothing else (in particular zero text chunk frames); on a validation failure
the agent is never invoked (the response does not depend on it) and the
message is `Invalid request`. -/
theorem c6_error_path (body : Jv) (agent : List ChatMessage → Except Str Str)
    (h : parseChatBody body = none ∨
      ∃ msgs e, parseChatBody body = some msgs ∧ agent msgs = Except.error e) :
    (∃ m, chatStreamHandler body agent = encodeErrorFrames m ∧
      encodeErrorFrames m = joinEvents [errorEventRaw m, dataSp ++ doneS] ∧
      eventTypeOf (errorEventRaw m) = some errorS ∧
      dataOf (errorEventRaw m) = some (jsonStringifyMsg m) ∧
      (m ≠ [] → errMsgVal (jsonStringifyMsg m) = Jv.jstr m) ∧
      dataOf (dataSp ++ doneS) = some doneS) ∧
    (parseChatBody body = none →
      chatStreamHandler body agent = encodeErrorFrames invalidRequestS ∧
      ∀ agent2, chatStreamHandler body agent2 = chatStreamHandler body agent) := by
  have hjoin : ∀ m : Str, encodeErrorFrames m = joinEvents [errorEventRaw m, dataSp ++ doneS] := by
    intro m
    simp [encodeErrorFrames, joinEvents, errorEventRaw]
  constructor
  · rcases h with hp | ⟨msgs, e, hp, ha⟩
    · refine ⟨invalidRequestS, ?_, hjoin _, errorEventRaw_type _, errorEventRaw_data _,
        fun hm => errMsgVal_msgObj hm, by decide⟩
      unfold chatStreamHandler
      rw [hp]
    · refine ⟨e, ?_, hjoin _, errorEventRaw_type _, errorEventRaw_data _,
        fun hm => errMsgVal_msgObj hm, by decide⟩
      unfold chatStreamHandler
      rw [hp]
      dsimp only
      rw [ha]
  · intro hp
    constructor
    · unfold chatStreamHandler
      rw [hp]
    · intro agent2
      unfold chatStreamHandler
      rw [hp]

/-! ### Agent loop: `runAgent` (server/agent.ts)

The model call (`model.invoke`) and the tools (`makeTools()`, implemented in
server/tools/agentTools.ts, outside the sources) are external collaborators,
passed as parameters; a tool returning `Except.error` models a thrown error
with that message.  The system prompt (prompts/systemPrompt.ts) is an opaque
constant that never influences the loop's control flow, also passed as a
parameter. -/

/-- A tool call requested by the model (`ai.additional_kwargs.tool_calls`):
id, function name and raw JSON argument text. -/
structure ToolCall where
  id : Str
  name : Str
  args : Str

/-- A model response: text content and requested tool calls.  (LangChain's
content may be non-string, in which case the source stringifies it; the
content is modelled as the resulting string.  An absent `tool_calls` field is
the empty list.) -/
structure AiMsg where
  content : Str
  tool_calls : List ToolCall

/-- One entry of the agent conversation. -/
inductive AgentMsg where
  | system (s : Str)
  | human (s : Str)
  | ai (a : AiMsg)
  | tool (content : Str) (tool_call_id : Str)

/-- A tool of the registry: its name and implementation. -/
structure AgentTool where
  name : Str
  func : Jv → Except Str Str

/-- Modelled from the spec: the text of the exception thrown by `JSON.parse`
on malformed tool-call arguments — a platform message; only the fact that it
is caught and fed back matters. -/
def jsonParseErrMsg : Str :=
  ['U', 'n', 'e', 'x', 'p', 'e', 'c', 't', 'e', 'd', ' ', 't', 'o', 'k', 'e', 'n']

/-- The prefix `"Tool error: "`. -/
def toolErrorPrefix : Str :=
  ['T', 'o', 'o', 'l', ' ', 'e', 'r', 'r', 'o', 'r', ':', ' ']

/-- The prefix `"Unknown tool: "`. -/
def unknownToolPrefix : Str :=
  ['U', 'n', 'k', 'n', 'o', 'w', 'n', ' ', 't', 'o', 'o', 'l', ':', ' ']

/-- The observation content appended for one tool call (lines 56-71 of
server/agent.ts): an unknown tool name, a caught argument-parse or tool
failure (`Tool error: ...`), or the tool's output — never a propagated
exception. -/
def execToolCall (tools : List AgentTool) (call : ToolCall) : Str :=
  match tools.find? (fun t => t.name == call.name) with
  | none => unknownToolPrefix ++ call.name
  | some t =>
    match jsonParse call.args with
    | none => toolErrorPrefix ++ jsonParseErrMsg
    | some args =>
      match t.func args with
      | .ok observation => observation
      | .error msg => toolErrorPrefix ++ msg

/-- An apostrophe (U+0027). -/
def apostrophe : Char := Char.ofNat 39

/-- The budget-exhausted answer returned after `maxSteps` rounds (line 75 of
server/agent.ts). -/
def budgetMsg (maxSteps : Nat) : Str :=
  "I".data ++ [apostrophe] ++ "ve reached the maximum number of tool calls (".data ++
    (toString maxSteps).data ++
    " steps) for this task. I".data ++ [apostrophe] ++
    "ve made progress, but the task may need to be broken into smaller parts. You can increase this limit by setting AGENT_MAX_STEPS environment variable, or ask me to continue from where I left off.".data

/-- The default of `AGENT_MAX_STEPS` (line 40 of server/agent.ts). -/
def agentMaxStepsDefault : Nat := 200

/-- The tool-calling loop of `runAgent` (lines 42-73): each round invokes the
model; a response without tool calls is the final answer; otherwise every
requested call is executed and its observation appended, and the loop
continues until the step budget is exhausted. -/
def runAgentGo (invoke : List AgentMsg → AiMsg) (tools : List AgentTool) (maxSteps : Nat) :
    Nat → List AgentMsg → Str
  | 0, _ => budgetMsg maxSteps
  | fuel + 1, scratch =>
    let ai := invoke scratch
    if ai.tool_calls.isEmpty then ai.content
    else
      runAgentGo invoke tools maxSteps fuel
        ((scratch ++ [AgentMsg.ai ai]) ++
          ai.tool_calls.map (fun call => AgentMsg.tool (execToolCall tools call) call.id))

/-- The initial conversation of `runAgent` (lines 33-37): the system prompt,
then each turn as a human or ai message by role. -/
def initialHistory (systemPrompt : Str) (messages : List ChatMessage) : List AgentMsg :=
  AgentMsg.system systemPrompt ::
    messages.map (fun msg =>
      if msg.role = userS then AgentMsg.human msg.content else AgentMsg.ai ⟨msg.content, []⟩)

/-- Model of `runAgent` with the external model, tools, prompt text and step
budget as parameters. -/
def runAgent (invoke : List AgentMsg → AiMsg) (tools : List AgentTool) (systemPrompt : Str)
    (maxSteps : Nat) (messages : List ChatMessage) : Str :=
  runAgentGo invoke tools maxSteps maxSteps (initialHistory systemPrompt messages)

/-- Number of model-invocation rounds the loop performs (a measurement mirror
of `runAgentGo`). -/
def agentRounds (invoke : List AgentMsg → AiMsg) (tools : List AgentTool) :
    Nat → List AgentMsg → Nat
  | 0, _ => 0
  | fuel + 1, scratch =>
    let ai := invoke scratch
    if ai.tool_calls.isEmpty then 1
    else
      1 + agentRounds invoke tools fuel
        ((scratch ++ [AgentMsg.ai ai]) ++
          ai.tool_calls.map (fun call => AgentMsg.tool (execToolCall tools call) call.id))

theorem agentRounds_le (invoke : List AgentMsg → AiMsg) (tools : List AgentTool) :
    ∀ (fuel : Nat) (scratch : List AgentMsg), agentRounds invoke tools fuel scratch ≤ fuel := by
  intro fuel
  induction fuel with
  | zero => intro scratch; simp [agentRounds]
  | succ fuel ih =>
    intro scratch
    simp only [agentRounds]
    by_cases h : (invoke scratch).tool_calls.isEmpty
    · simp [h]
    · simp only [h, if_false, Bool.false_eq_true]
      have := ih ((scratch ++ [AgentMsg.ai (invoke scratch)]) ++
        (invoke scratch).tool_calls.map
          (fun call => AgentMsg.tool (execToolCall tools call) call.id))
      omega

theorem runAgentGo_spec (invoke : List AgentMsg → AiMsg) (tools : List AgentTool)
    (maxSteps : Nat) : ∀ (fuel : Nat) (scratch : List AgentMsg),
    (∃ s, runAgentGo invoke tools maxSteps fuel scratch = (invoke s).content ∧
      (invoke s).tool_calls = []) ∨
    runAgentGo invoke tools maxSteps fuel scratch = budgetMsg maxSteps := by
  intro fuel
  induction fuel with
  | zero => intro scratch; right; rfl
  | succ fuel ih =>
    intro scratch
    by_cases h : (invoke scratch).tool_calls.isEmpty
    · left
      exact ⟨scratch, by simp [runAgentGo, h], List.isEmpty_iff.1 h⟩
    · have := ih ((scratch ++ [AgentMsg.ai (invoke scratch)]) ++
        (invoke scratch).tool_calls.map
          (fun call => AgentMsg.tool (execToolCall tools call) call.id))
      rcases this with ⟨s, hs1, hs2⟩ | hb
      · left
        exact ⟨s, by simp only [runAgentGo, h, if_false, Bool.false_eq_true]; exact hs1, hs2⟩
      · right
        simp only [runAgentGo, h, if_false, Bool.false_eq_true]
        exact hb

/-- C7: `runAgent` always returns a string, performing at most `maxSteps`
(by default `AGENT_MAX_STEPS = 200`) model rounds: either the final answer of
a round that requested no tool calls, or the budget-exhausted message once
the budget runs out.  A failing tool invocation is absorbed into an
observation (`Tool error: ...` appended to the conversation); it never
propagates out of the loop. -/
theorem c7_agent_loop_bounded (invoke : List AgentMsg → AiMsg) (tools : List AgentTool)
    (systemPrompt : Str) (maxSteps : Nat) (messages : List ChatMessage) :
    agentRounds invoke tools maxSteps (initialHistory systemPrompt messages) ≤ maxSteps ∧
    ((∃ s, runAgent invoke tools systemPrompt maxSteps messages = (invoke s).content ∧
        (invoke s).tool_calls = []) ∨
      runAgent invoke tools systemPrompt maxSteps messages = budgetMsg maxSteps) ∧
    agentMaxStepsDefault = 200 ∧
    (∀ (call : ToolCall) (t : AgentTool) (args : Jv) (e : Str),
      tools.find? (fun t2 => t2.name == call.name) = some t →
      jsonParse call.args = some args →
      t.func args = Except.error e →
      execToolCall tools call = toolErrorPrefix ++ e) := by
  refine ⟨agentRounds_le invoke tools maxSteps _, runAgentGo_spec invoke tools maxSteps maxSteps _,
    rfl, ?_⟩
  intro call t args e hfind hparse hfail
  unfold execToolCall
  rw [hfind, hparse]
  dsimp only
  rw [hfail]

theorem c7_agent_loop_bounded_witness :
    jsonParse ("42".data) = some (Jv.jnum false ['4', '2']) ∧
    execToolCall [⟨"boomtool".data, fun _ => Except.error ("boom".data)⟩]
      ⟨"1".data, "boomtool".data, "42".data⟩ = toolErrorPrefix ++ "boom".data :=
  ⟨rfl,
    (c7_agent_loop_bounded (fun _ => ⟨[], []⟩)
        [⟨"boomtool".data, fun _ => Except.error ("boom".data)⟩] [] 200 []).2.2.2
      ⟨"1".data, "boomtool".data, "42".data⟩
      ⟨"boomtool".data, fun _ => Except.error ("boom".data)⟩
      (Jv.jnum false ['4', '2']) ("boom".data) rfl rfl rfl⟩

/-! ### Message assembler: `appendAssistantToken` (src/hooks/useChat.ts)

The UI message record of src/types and the token-append operation of the
assembler.  The source locates the message with `findIndex` and replaces that
index with a copy whose content has the token appended; `appendTokenGo`
mirrors that first-match update.  `now` models `Date.now()`. -/

/-- A UI message (src/types/index.ts `Message`). -/
structure Message where
  id : Str
  role : Str
  content : Str
  timestamp : Nat
  reaction : Option Str := none
  attachments : Option (List Str) := none
  error : Option ErrorResponse := none
  retryable : Option Bool := none

/-- The defensively inserted assistant message carrying a first token. -/
def newAssistantMsg (assistantMessageId token : Str) (now : Nat) : Message :=
  { id := assistantMessageId, role := assistantS, content := token, timestamp := now }

/-- First-match update of the message with the given id, inserting at the
tail when absent (`findIndex` + copy-with-set of the source). -/
def appendTokenGo (assistantMessageId token : Str) (now : Nat) : List Message → List Message
  | [] => [newAssistantMsg assistantMessageId token now]
  | m :: ms =>
    if m.id == assistantMessageId then { m with content := m.content ++ token } :: ms
    else m :: appendTokenGo assistantMessageId token now ms

/-- The assembler's token append (lines 425-448 of useChat.ts): an empty
token is a no-op (`if (!token) return`); otherwise the first message with the
id gets the token concatenated onto its content, and when no message has the
id a new assistant message carrying the token is inserted at the tail
(defensive insert-on-missing). -/
def appendAssistantToken (prev : List Message) (assistantMessageId token : Str)
    (now : Nat) : List Message :=
  if token = [] then prev
  else appendTokenGo assistantMessageId token now prev

/-- Locate a message by id (`messages.findIndex(m => m.id === id)` as the
message found first). -/
def findById (msgs : List Message) (mid : Str) : Option Message :=
  msgs.find? (fun m => m.id == mid)

theorem appendTokenGo_none {msgs : List Message} {A : Str} (t : Str) (now : Nat)
    (h : findById msgs A = none) :
    appendTokenGo A t now msgs = msgs ++ [newAssistantMsg A t now] := by
  induction msgs with
  | nil => rfl
  | cons m ms ih =>
    unfold findById at h ih
    rw [List.find?_cons] at h
    cases hid : (m.id == A) with
    | true => rw [hid] at h; simp at h
    | false =>
      rw [hid] at h
      simp only [appendTokenGo, hid]
      rw [ih h]
      rfl

theorem findById_append_new {msgs : List Message} {A : Str} (t : Str) (now : Nat)
    (h : findById msgs A = none) :
    findById (msgs ++ [newAssistantMsg A t now]) A = some (newAssistantMsg A t now) := by
  induction msgs with
  | nil => simp [findById, List.find?, newAssistantMsg]
  | cons m ms ih =>
    unfold findById at h ih ⊢
    rw [List.find?_cons] at h
    cases hid : (m.id == A) with
    | true => rw [hid] at h; simp at h
    | false =>
      rw [hid] at h
      rw [List.cons_append, List.find?_cons, hid]
      exact ih h

theorem appendTokenGo_some {msgs : List Message} {A : Str} {m : Message} (t : Str) (now : Nat)
    (h : findById msgs A = some m) :
    findById (appendTokenGo A t now msgs) A = some { m with content := m.content ++ t } := by
  induction msgs with
  | nil => simp [findById, List.find?] at h
  | cons m0 ms ih =>
    unfold findById at h ih ⊢
    rw [List.find?_cons] at h
    cases hid : (m0.id == A) with
    | true =>
      rw [hid] at h
      dsimp only at h
      simp only [Option.some.injEq] at h
      subst h
      simp only [appendTokenGo, hid, if_true]
      rw [List.find?_cons]
      simp [hid]
    | false =>
      rw [hid] at h
      dsimp only at h
      simp only [appendTokenGo, hid, Bool.false_eq_true, if_false]
      rw [List.find?_cons]
      simp only [hid]
      exact ih h

/-- C8: appending token `x` and then token `y` for assistant id `A` yields a
message with id `A` whose content is `xy`, whether `A` is absent (no `begin`
insertion happened yet — the defensive insert creates it) or present with
empty content (the `begin` insertion placed it); in general, for a nonempty
token, the append inserts a new assistant message carrying the token when the
id is absent and concatenates onto the first matching message's content when
present. -/
theorem c8_append_tokens (msgs : List Message) (A : Str) (n1 n2 : Nat) :
    ((findById msgs A = none ∨ (∃ m, findById msgs A = some m ∧ m.content = [])) →
      ∃ m2, findById (appendAssistantToken (appendAssistantToken msgs A ['x'] n1) A ['y'] n2) A =
          some m2 ∧ m2.content = ['x', 'y']) ∧
    (∀ t now, t ≠ [] → findById msgs A = none →
      appendAssistantToken msgs A t now = msgs ++ [newAssistantMsg A t now]) ∧
    (∀ t now m, t ≠ [] → findById msgs A = some m →
      findById (appendAssistantToken msgs A t now) A =
        some { m with content := m.content ++ t }) := by
  have hgen : ∀ (l : List Message) (t : Str) (now : Nat), t ≠ [] →
      appendAssistantToken l A t now = appendTokenGo A t now l := by
    intro l t now ht
    unfold appendAssistantToken
    rw [if_neg ht]
  refine ⟨?_, ?_, ?_⟩
  · intro h
    rcases h with h | ⟨m, hm, hc⟩
    · have h1 : appendAssistantToken msgs A ['x'] n1 = msgs ++ [newAssistantMsg A ['x'] n1] := by
        rw [hgen msgs ['x'] n1 (by simp), appendTokenGo_none ['x'] n1 h]
      have h2 : findById (msgs ++ [newAssistantMsg A ['x'] n1]) A =
          some (newAssistantMsg A ['x'] n1) := findById_append_new ['x'] n1 h
      refine ⟨{ newAssistantMsg A ['x'] n1 with
        content := (newAssistantMsg A ['x'] n1).content ++ ['y'] }, ?_, rfl⟩
      rw [hgen _ ['y'] n2 (by simp), h1]
      exact appendTokenGo_some ['y'] n2 h2
    · have h1 : findById (appendAssistantToken msgs A ['x'] n1) A =
          some { m with content := m.content ++ ['x'] } := by
        rw [hgen msgs ['x'] n1 (by simp)]
        exact appendTokenGo_some ['x'] n1 hm
      refine ⟨{ m with content := (m.content ++ ['x']) ++ ['y'] }, ?_, by rw [hc]; rfl⟩
      rw [hgen _ ['y'] n2 (by simp)]
      exact appendTokenGo_some ['y'] n2 h1
  · intro t now ht h
    rw [hgen msgs t now ht, appendTokenGo_none t now h]
  · intro t now m ht h
    rw [hgen msgs t now ht]
    exact appendTokenGo_some t now h

/-- C10: the token-append operation with the empty token leaves the message
list completely unchanged — no content is modified and no defensive insertion
occurs, for any id, including absent ones. -/
theorem c10_empty_token_noop (msgs : List Message) (A : Str) (now : Nat) :
    appendAssistantToken msgs A [] now = msgs := by
  unfold appendAssistantToken
  rw [if_pos rfl]

theorem c8_append_tokens_witness :
    (findById [] (['A'] : Str) = none) ∧
    (∃ m2, findById (appendAssistantToken (appendAssistantToken [] ['A'] ['x'] 1) ['A'] ['y'] 2)
        ['A'] = some m2 ∧ m2.content = ['x', 'y']) :=
  ⟨rfl, (c8_append_tokens [] ['A'] 1 2).1 (Or.inl rfl)⟩

theorem c6_error_path_witness :
    parseChatBody (Jv.jobj []) = none ∧
    ((∃ m, chatStreamHandler (Jv.jobj []) (fun _ => Except.ok []) = encodeErrorFrames m ∧
        encodeErrorFrames m = joinEvents [errorEventRaw m, dataSp ++ doneS] ∧
        eventTypeOf (errorEventRaw m) = some errorS ∧
        dataOf (errorEventRaw m) = some (jsonStringifyMsg m) ∧
        (m ≠ [] → errMsgVal (jsonStringifyMsg m) = Jv.jstr m) ∧
        dataOf (dataSp ++ doneS) = some doneS) ∧
      (parseChatBody (Jv.jobj []) = none →
        chatStreamHandler (Jv.jobj []) (fun _ => Except.ok []) =
          encodeErrorFrames invalidRequestS ∧
        ∀ agent2, chatStreamHandler (Jv.jobj []) agent2 =
          chatStreamHandler (Jv.jobj []) (fun _ => Except.ok []))) :=
  ⟨rfl, c6_error_path (Jv.jobj []) (fun _ => Except.ok []) (Or.inl rfl)⟩
